import Mathlib

/-!
Verification of the data-normalization and derived-metrics core of the
pick'em dashboard (source: `assets/app.js`, main variant).

JavaScript values are shallowly embedded:
* JS numbers are idealised as exact rationals (`ℚ`), keeping an explicit
  representation of the non-finite values `NaN` and `±Infinity` (`JSNum`);
* the loosely typed JSON fields (`number | string | null | undefined`) are
  embedded as `RawVal`, collapsing `null`/`undefined`/other non-number,
  non-string values into `RawVal.null` (every use in the source first
  discriminates with `typeof` checks that only distinguish these classes);
* `Array.prototype.sort` (stable since ES2019) is embedded as
  `List.mergeSort` over the comparator's effective boolean order, taking the
  ECMAScript `SortCompare` rule "a NaN comparator result counts as +0" into
  account;
* fallible operations return `Option`.
-/

namespace Kevin

/-- A JavaScript number: a finite rational, a signed infinity, or NaN.
(Floating-point rounding and overflow are idealised away; arithmetic on
finite values is exact.) -/
inductive JSNum where
  | finite (q : ℚ)
  | inf (neg : Bool)
  | nan
deriving DecidableEq, Repr

/-- `Number.isFinite`. -/
def JSNum.isFinite : JSNum → Bool
  | .finite _ => true
  | _ => false

/-- JS `+` on numbers (NaN propagates, opposite infinities give NaN). -/
def JSNum.add : JSNum → JSNum → JSNum
  | .nan, _ => .nan
  | _, .nan => .nan
  | .inf n1, .inf n2 => if n1 = n2 then .inf n1 else .nan
  | .inf n1, .finite _ => .inf n1
  | .finite _, .inf n2 => .inf n2
  | .finite p, .finite q => .finite (p + q)

/-- JS `/` by a positive natural number. -/
def JSNum.divNat : JSNum → ℕ → JSNum
  | .nan, _ => .nan
  | .inf n, _ => .inf n
  | .finite q, n => .finite (q / n)

/-- A raw JSON field value: a number, a string, or anything else
(`null`, `undefined`, booleans, objects), which the source code's
`typeof` discriminations treat uniformly. -/
inductive RawVal where
  | num (j : JSNum)
  | str (s : String)
  | null
deriving DecidableEq, Repr

/-- The JS whitespace class used by `trim`, `\s` and `parseFloat`
(ASCII whitespace plus no-break space; other rare Unicode space
characters are omitted). -/
def isJsWhitespace (c : Char) : Bool :=
  [' ', '\t', '\n', '\r', '\x0b', '\x0c', ' '].contains c

/-- `String.prototype.trim` on a character list. -/
def trimChars (cs : List Char) : List Char :=
  ((cs.dropWhile isJsWhitespace).reverse.dropWhile isJsWhitespace).reverse

/-- `String.prototype.trim`. -/
def jsTrim (s : String) : String := String.mk (trimChars s.data)

/-- ASCII lower-casing, the fragment of `String.prototype.toLowerCase`
exercised by the data (result strings such as "LOSS"). -/
def lowerChars (cs : List Char) : List Char := cs.map Char.toLower

def isDigitChar (c : Char) : Bool := c.isDigit

def digitVal (c : Char) : ℕ := c.toNat - 48

def digitsToNat (ds : List Char) : ℕ := ds.foldl (fun a c => 10 * a + digitVal c) 0

/-- Consume an optional leading sign, returning `true` for `-`. -/
def parseSignChar : List Char → Bool × List Char
  | '-' :: rest => (true, rest)
  | '+' :: rest => (false, rest)
  | cs => (false, cs)

/-- The optional exponent part of a decimal literal (`e`/`E`, optional sign,
digits); a malformed exponent contributes 0, as `parseFloat` then stops
before it. -/
def parseExponentPart : List Char → ℤ
  | c :: rest =>
    if c = 'e' || c = 'E' then
      let (eneg, r1) := parseSignChar rest
      let eds := r1.takeWhile isDigitChar
      if eds.isEmpty then 0
      else if eneg then -(digitsToNat eds : ℤ) else (digitsToNat eds : ℤ)
    else 0
  | [] => 0

/-- ECMAScript `parseFloat`: skip leading whitespace, then read the longest
prefix that is a signed decimal literal (`Infinity` allowed); no prefix
parses to NaN. -/
def parseFloatChars (cs0 : List Char) : JSNum :=
  let cs := cs0.dropWhile isJsWhitespace
  let (neg, cs1) := parseSignChar cs
  if "Infinity".data.isPrefixOf cs1 then .inf neg
  else
    let ds1 := cs1.takeWhile isDigitChar
    let cs2 := cs1.dropWhile isDigitChar
    let (ds2, cs3) :=
      match cs2 with
      | '.' :: rest => (rest.takeWhile isDigitChar, rest.dropWhile isDigitChar)
      | _ => (([] : List Char), cs2)
    if ds1.isEmpty && ds2.isEmpty then .nan
    else
      let mantissa : ℚ :=
        (digitsToNat ds1 : ℚ) + (digitsToNat ds2 : ℚ) / (10 : ℚ) ^ ds2.length
      let v := mantissa * (10 : ℚ) ^ parseExponentPart cs3
      .finite (if neg then -v else v)

/-- `parseScoreValue` from app.js: a finite number passes through; a string
is trimmed, stripped of every character outside `[0-9.+-]` and parsed with
`parseFloat`; everything else (and any non-finite outcome) is `null`. -/
def parseScoreValue : RawVal → Option ℚ
  | .num (.finite q) => some q
  | .num _ => none
  | .str s =>
    let trimmed := trimChars s.data
    if trimmed.isEmpty then none
    else
      match parseFloatChars
          (trimmed.filter fun c => isDigitChar c || c = '.' || c = '+' || c = '-') with
      | .finite q => some q
      | _ => none
  | .null => none

/-- One pick of one player (raw JSON fields). -/
structure Pick where
  team : RawVal
  points : RawVal
  awarded_points : RawVal
  result : RawVal
deriving DecidableEq, Repr

/-- A player's highlighted best bet (raw JSON fields). -/
structure BestBet where
  team : RawVal
  line : RawVal
  time : RawVal
deriving DecidableEq, Repr

/-- A player; `picks` is `none` when the field is absent or not an array,
and array slots may hold `null` (`Option Pick`). -/
structure Player where
  name : String
  total_points : RawVal
  best_bet : Option BestBet
  picks : Option (List (Option Pick))
deriving DecidableEq, Repr

/-- A standings row: week name to raw score value, in key insertion order. -/
abbrev WeekMap := List (String × RawVal)

/-- The standings object: player name to week map (`none` when a player's
entry is not an object), in key insertion order. -/
abbrev Standings := List (String × Option WeekMap)

/-- The trimmed, lower-cased `pick.result`, `''` when it is not a string
(`typeof pick.result === 'string' ? pick.result.trim().toLowerCase() : ''`). -/
def jsResultString (v : RawVal) : String :=
  match v with
  | .str s => String.mk (lowerChars (trimChars s.data))
  | _ => ""

/-- The loop body of `computeScoreFromPicks`: fold over the picks array
carrying the running total and the `hasPick` flag, with early `return null`
embedded as an immediate `none`. -/
def computeScoreFromPicksGo : List (Option Pick) → ℚ → Bool → Option ℚ
  | [], total, hasPick => if hasPick then some total else none
  | none :: rest, total, hasPick => computeScoreFromPicksGo rest total hasPick
  | some pick :: rest, total, _ =>
    match parseScoreValue pick.awarded_points with
    | some awarded => computeScoreFromPicksGo rest (total + awarded) true
    | none =>
      let result := jsResultString pick.result
      if result = "" || result = "pending" then none
      else if result = "loss" then computeScoreFromPicksGo rest total true
      else none

/-- `computeScoreFromPicks` from app.js (`none` argument models a missing
or non-array `picks` field). -/
def computeScoreFromPicks : Option (List (Option Pick)) → Option ℚ
  | none => none
  | some picks => if picks.isEmpty then none else computeScoreFromPicksGo picks 0 false

/-- The standings lookup made by `getWeeklyScore`:
`parseScoreValue(standings?.[name]?.[weekName])`, skipped when the player's
standings entry is missing or not an object. -/
def standingsScore (standings : Standings) (name weekName : String) : Option ℚ :=
  match List.lookup name standings with
  | some (some entry) => parseScoreValue ((List.lookup weekName entry).getD .null)
  | _ => none

/-- `getWeeklyScore` from app.js: explicit `total_points` first, then the
standings ledger, then recomputation from the picks. -/
def getWeeklyScore (player : Option Player) (standings : Standings)
    (weekName : String) : Option ℚ :=
  match player with
  | none => none
  | some p =>
    match parseScoreValue p.total_points with
    | some q => some q
    | none =>
      match standingsScore standings p.name weekName with
      | some q => some q
      | none => computeScoreFromPicks p.picks

/-- A pick lets the recomputation proceed when its `awarded_points` parses
to a finite number or its normalised result is "loss". -/
def pickGood (p : Pick) : Bool :=
  (parseScoreValue p.awarded_points).isSome || jsResultString p.result = "loss"

/-- The amount a non-blocking pick adds to the recomputed total: its parsed
`awarded_points`, or 0 for a loss without awarded points. -/
def pickContribution (p : Pick) : ℚ := (parseScoreValue p.awarded_points).getD 0

theorem computeScoreFromPicksGo_eq (l : List (Option Pick)) (total : ℚ) (hasPick : Bool) :
    computeScoreFromPicksGo l total hasPick =
      if (l.filterMap id).all pickGood then
        (if hasPick || !(l.filterMap id).isEmpty then
          some (total + ((l.filterMap id).map pickContribution).sum) else none)
      else none := by
  induction l generalizing total hasPick with
  | nil => cases hasPick <;> simp [computeScoreFromPicksGo]
  | cons o rest ih =>
    cases o with
    | none => simpa [computeScoreFromPicksGo] using ih total hasPick
    | some pick =>
      have hfm : (some pick :: rest).filterMap id = pick :: rest.filterMap id := by
        simp
      rw [hfm, List.all_cons, List.map_cons, List.sum_cons]
      simp only [List.isEmpty_cons, Bool.not_false, Bool.or_true, if_true]
      simp only [computeScoreFromPicksGo]
      cases h : parseScoreValue pick.awarded_points with
      | some a =>
        dsimp only
        have hg : pickGood pick = true := by simp [pickGood, h]
        have hc : pickContribution pick = a := by simp [pickContribution, h]
        rw [ih, hg, hc, Bool.true_and, Bool.true_or, if_pos rfl]
        by_cases hall : (rest.filterMap id).all pickGood = true
        · rw [if_pos hall, if_pos hall, add_assoc]
        · rw [if_neg hall, if_neg hall]
      | none =>
        dsimp only
        by_cases h1 : jsResultString pick.result = "" || jsResultString pick.result = "pending"
        · have hg : pickGood pick = false := by
            rcases Bool.or_eq_true_iff.mp h1 with h2 | h2 <;>
              simp_all [pickGood, h, decide_eq_true_eq]
          rw [if_pos h1, hg, Bool.false_and, if_neg (by simp)]
        · rw [if_neg (by simpa using h1)]
          rw [Bool.or_eq_true_iff] at h1
          push_neg at h1
          have h1' : ¬(jsResultString pick.result = "" ∨ jsResultString pick.result = "pending") := by
            intro hc
            rcases hc with hc | hc <;> simp [hc] at h1
          by_cases h2 : jsResultString pick.result = "loss"
          · have hg : pickGood pick = true := by simp [pickGood, h2]
            have hc : pickContribution pick = 0 := by simp [pickContribution, h]
            rw [if_pos (by simp [h2]), ih, hg, hc, Bool.true_and, Bool.true_or, if_pos rfl,
              zero_add]
          · have hg : pickGood pick = false := by simp [pickGood, h, h2]
            rw [if_neg (by simp [h2]), hg, Bool.false_and, if_neg (by simp)]

/-- C2: in `computeScoreFromPicks`, each pick with a finite parsed
`awarded_points` adds that value; a pick without it and with result "loss"
adds 0; a pick without it whose normalised result is absent/empty or
"pending" makes the whole computation return `null`; an absent, empty or
all-null picks list gives `null`; when picks exist and none blocks, the
accumulated total is returned; and the spec's pending example yields
`null`. -/
theorem computeScoreFromPicks_spec :
    (computeScoreFromPicks none = none) ∧
    (computeScoreFromPicks (some []) = none) ∧
    (∀ picks : List (Option Pick),
      (picks.filterMap id ≠ [] → (∀ p ∈ picks.filterMap id, pickGood p = true) →
        computeScoreFromPicks (some picks) =
          some (((picks.filterMap id).map pickContribution).sum)) ∧
      (∀ p ∈ picks.filterMap id, parseScoreValue p.awarded_points = none →
        (jsResultString p.result = "" ∨ jsResultString p.result = "pending") →
        computeScoreFromPicks (some picks) = none)) ∧
    (∀ p : Pick, ∀ q : ℚ, parseScoreValue p.awarded_points = some q →
      pickContribution p = q) ∧
    (∀ p : Pick, parseScoreValue p.awarded_points = none → pickContribution p = 0) ∧
    (computeScoreFromPicks (some
        [some ⟨.str "A", .num (.finite 3), .num (.finite 3), .str "win"⟩,
         some ⟨.str "B", .num (.finite 2), .null, .str "pending"⟩]) = none) := by
  refine ⟨rfl, rfl, ?_, ?_, ?_, by decide⟩
  · intro picks
    constructor
    · intro hne hall
      have hpe : picks.isEmpty = false := by
        cases picks with
        | nil => simp at hne
        | cons a l => rfl
      have hall' : (picks.filterMap id).all pickGood = true := List.all_eq_true.mpr hall
      simp only [computeScoreFromPicks, hpe, Bool.false_eq_true, if_false,
        computeScoreFromPicksGo_eq]
      rw [if_pos hall', if_pos (by simp [List.isEmpty_iff, hne])]
      simp
    · intro p hp haw hres
      have hbad : (picks.filterMap id).all pickGood = false := by
        rw [Bool.eq_false_iff]
        intro hall
        rw [List.all_eq_true] at hall
        have := hall p hp
        rcases hres with h1 | h1 <;> simp [pickGood, haw, h1] at this
      cases hpe : picks.isEmpty with
      | true =>
        simp only [computeScoreFromPicks, hpe, if_true]
      | false =>
        simp only [computeScoreFromPicks, hpe, Bool.false_eq_true, if_false,
          computeScoreFromPicksGo_eq]
        rw [hbad]
        simp
  · intro p q h
    simp [pickContribution, h]
  · intro p h
    simp [pickContribution, h]

/-- A concrete application of `computeScoreFromPicks_spec`: the spec's
loss example `[{awarded 3}, {result loss}]` totals to the contribution sum. -/
theorem computeScoreFromPicks_spec_witness :
    computeScoreFromPicks (some
        [some ⟨.str "A", .num (.finite 3), .num (.finite 3), .null⟩,
         some ⟨.str "B", .num (.finite 2), .null, .str "loss"⟩]) =
      some ((([some (⟨.str "A", .num (.finite 3), .num (.finite 3), .null⟩ : Pick),
         some ⟨.str "B", .num (.finite 2), .null, .str "loss"⟩].filterMap id).map
          pickContribution).sum) :=
  (computeScoreFromPicks_spec.2.2.1 _).1 (by decide) (by decide)

/-- C1: `getWeeklyScore` resolves with fixed precedence, first success
winning: a finite parse of `total_points` is returned (standings and picks
ignored); otherwise a finite parse of the standings entry is returned;
otherwise the result is the recomputation from the picks; if all three
fail the result is `null`. -/
theorem getWeeklyScore_precedence (p : Player) (standings : Standings) (weekName : String) :
    (∀ q, parseScoreValue p.total_points = some q →
      getWeeklyScore (some p) standings weekName = some q) ∧
    (parseScoreValue p.total_points = none →
      ∀ q, standingsScore standings p.name weekName = some q →
        getWeeklyScore (some p) standings weekName = some q) ∧
    (parseScoreValue p.total_points = none →
      standingsScore standings p.name weekName = none →
      getWeeklyScore (some p) standings weekName = computeScoreFromPicks p.picks) ∧
    (parseScoreValue p.total_points = none →
      standingsScore standings p.name weekName = none →
      computeScoreFromPicks p.picks = none →
      getWeeklyScore (some p) standings weekName = none) := by
  refine ⟨?_, ?_, ?_, ?_⟩ <;> intros <;> simp_all [getWeeklyScore]

/-- A concrete application of `getWeeklyScore_precedence`: with
`total_points = 14`, a conflicting standings entry and a pending pick are
both ignored and the score is 14. -/
theorem getWeeklyScore_precedence_witness :
    getWeeklyScore (some ⟨"A", .num (.finite 14), none,
        some [some ⟨.str "X", .num (.finite 3), .null, .str "pending"⟩]⟩)
      [("A", some [("W1", .str "7")])] "W1" = some 14 :=
  (getWeeklyScore_precedence _ _ _).1 14 rfl

/-- The data `computeScoreFromPicks` actually reads from a pick: its parsed
`awarded_points` and its normalised result string. -/
def pickProjection (p : Pick) : Option ℚ × String :=
  (parseScoreValue p.awarded_points, jsResultString p.result)

theorem computeScoreFromPicksGo_congr (l1 l2 : List (Option Pick))
    (h : l1.map (Option.map pickProjection) = l2.map (Option.map pickProjection))
    (total : ℚ) (hasPick : Bool) :
    computeScoreFromPicksGo l1 total hasPick = computeScoreFromPicksGo l2 total hasPick := by
  induction l1 generalizing l2 total hasPick with
  | nil =>
    cases l2 with
    | nil => rfl
    | cons b m => simp at h
  | cons a l ih =>
    cases l2 with
    | nil => simp at h
    | cons b m =>
      simp only [List.map_cons, List.cons.injEq] at h
      cases a with
      | none =>
        cases b with
        | none => simpa [computeScoreFromPicksGo] using ih m h.2 total hasPick
        | some pb => simp at h
      | some pa =>
        cases b with
        | none => simp at h
        | some pb =>
          have hproj : pickProjection pa = pickProjection pb := by
            simpa using h.1
          have haw : parseScoreValue pa.awarded_points = parseScoreValue pb.awarded_points :=
            congrArg Prod.fst hproj
          have hres : jsResultString pa.result = jsResultString pb.result :=
            congrArg Prod.snd hproj
          simp only [computeScoreFromPicksGo, haw, hres]
          cases parseScoreValue pb.awarded_points with
          | some q => exact ih m h.2 (total + q) true
          | none =>
            simp only
            split
            · rfl
            · split
              · exact ih m h.2 total true
              · rfl

/-- C10: the result string of a pick is compared after trimming and
lower-casing, so any two picks lists whose picks agree on parsed awarded
points and on the trimmed lower-cased result behave identically; "LOSS" and
" Loss " normalise to "loss", "PENDING" to "pending", and a whitespace-only
result normalises to the same empty string as an absent result. -/
theorem computeScoreFromPicks_result_normalised :
    (∀ l1 l2 : List (Option Pick),
      l1.map (Option.map pickProjection) = l2.map (Option.map pickProjection) →
      computeScoreFromPicks (some l1) = computeScoreFromPicks (some l2)) ∧
    jsResultString (.str "LOSS") = "loss" ∧
    jsResultString (.str " Loss ") = "loss" ∧
    jsResultString (.str "PENDING") = "pending" ∧
    jsResultString (.str "   ") = "" ∧
    jsResultString .null = "" := by
  refine ⟨?_, by decide, by decide, by decide, by decide, rfl⟩
  intro l1 l2 h
  have hlen : l1.length = l2.length := by
    have := congrArg List.length h
    simpa using this
  have hemp : l1.isEmpty = l2.isEmpty := by
    cases l1 <;> cases l2 <;> simp_all
  simp only [computeScoreFromPicks, hemp]
  split
  · rfl
  · exact computeScoreFromPicksGo_congr l1 l2 h 0 false

/-- A concrete application of `computeScoreFromPicks_result_normalised`:
a pick graded " Loss " behaves exactly like one graded "loss". -/
theorem computeScoreFromPicks_result_normalised_witness :
    computeScoreFromPicks (some [some ⟨.str "A", .num (.finite 2), .null, .str " Loss "⟩]) =
      computeScoreFromPicks (some [some ⟨.str "A", .num (.finite 2), .null, .str "loss"⟩]) :=
  computeScoreFromPicks_result_normalised.1 _ _ (by decide)

/-- The whitespace normalisation of `normaliseLineValue`:
`.replace(/ /g, ' ').replace(/\s+/g, ' ')` collapses every whitespace
run into a single space. -/
def collapseWs (cs : List Char) : List Char :=
  cs.foldr
    (fun c acc =>
      if isJsWhitespace c then
        match acc with
        | ' ' :: _ => acc
        | _ => ' ' :: acc
      else c :: acc) []

/-- `.replace(/[−–—]/g, '-')`: unicode minus, en dash and
em dash become an ASCII hyphen-minus. -/
def dashToMinus (c : Char) : Char :=
  if c = '−' || c = '–' || c = '—' then '-' else c

/-- The `FRACTION_VALUES` table from app.js. -/
def fractionValueOf : Char → Option ℚ
  | '¼' => some (1/4)
  | '½' => some (1/2)
  | '¾' => some (3/4)
  | '⅛' => some (1/8)
  | '⅜' => some (3/8)
  | '⅝' => some (5/8)
  | '⅞' => some (7/8)
  | _ => none

/-- `Number.parseFloat(x.toFixed(3))` idealised over rationals: round to 3
decimal places. `toFixed` picks the larger candidate at a tie, which is
rounding half towards `+∞`, exactly Mathlib's `round`. -/
def roundTo3 (q : ℚ) : ℚ := (round (q * 1000) : ℚ) / 1000

/-- `normaliseLineValue` from app.js: finite numbers pass through; strings
are whitespace-normalised, dash-normalised, checked for a trailing fraction
glyph, parsed with `parseFloat` (the glyph, if any, stops the parse and its
value is added back with the sign of the string's leading `-`), and rounded
to 3 decimals; everything non-finite or unparseable gives `null`. -/
def normaliseLineValue (line : RawVal) : Option ℚ :=
  match line with
  | .num (.finite q) => some q
  | .num _ => none
  | .null => none
  | .str s =>
    let trimmed := trimChars (collapseWs s.data)
    if trimmed.isEmpty then none
    else
      let normalised := trimmed.map dashToMinus
      let fractionMatch : Option ℚ := normalised.getLast?.bind fractionValueOf
      let fractionValue : ℚ := fractionMatch.getD 0
      let parsed := parseFloatChars normalised
      if parsed = .nan && fractionMatch.isNone then none
      else
        let numeric0 : JSNum := if parsed = .nan then .finite 0 else parsed
        let numeric1 : JSNum :=
          if fractionValue ≠ 0 then
            numeric0.add (.finite
              ((if normalised.head? = some '-' then -1 else 1) * fractionValue))
          else numeric0
        match numeric1 with
        | .finite q => some (roundTo3 q)
        | _ => none

/-- Zero-padded three-digit decimal fraction for `toFixed(3)`. -/
def pad3 (n : ℕ) : String :=
  (if n < 10 then "00" else if n < 100 then "0" else "") ++ toString n

/-- `x.toFixed(3)` as a character list (the sign of a negative zero is not
tracked, as `RawVal` numbers are exact rationals). -/
def toFixed3String (q : ℚ) : List Char :=
  let n : ℤ := round (q * 1000)
  let m := n.natAbs
  ((if n < 0 then "-" else "") ++ toString (m / 1000) ++ "." ++ pad3 (m % 1000)).data

/-- `.replace(/\.?0+$/, '')`: when the string ends in a zero, remove the
maximal run of trailing zeros together with a single dot just before it. -/
def stripTrailingZerosDot (cs : List Char) : List Char :=
  let r := cs.reverse
  if r.head? = some '0' then
    let r1 := r.dropWhile (fun c => c = '0')
    (match r1 with
      | '.' :: rest => rest
      | _ => r1).reverse
  else cs

/-- `formatLine` from app.js: a normalisable line renders with up to three
decimals, trailing zeros stripped and a `+` prefix when positive; otherwise
null/undefined/empty input renders as an em dash and anything else is
returned verbatim. -/
def formatLine (line : RawVal) : RawVal :=
  match normaliseLineValue line with
  | some q =>
    let display := stripTrailingZerosDot (toFixed3String q)
    .str (if 0 < q then "+" ++ String.mk display else String.mk display)
  | none =>
    if line = .null || line = .str "" then .str "—" else line

set_option maxRecDepth 100000 in
/-- C4: for each of -7, -7.5, 3.5, 0 and 110.125, formatting the line and
normalising the rendered string recovers the value to within 1e-3. -/
theorem normaliseLine_formatLine_roundTrip :
    (∃ y : ℚ, normaliseLineValue (formatLine (.num (.finite (-7)))) = some y ∧
      |y - (-7)| ≤ 1/1000) ∧
    (∃ y : ℚ, normaliseLineValue (formatLine (.num (.finite (-7.5)))) = some y ∧
      |y - (-7.5)| ≤ 1/1000) ∧
    (∃ y : ℚ, normaliseLineValue (formatLine (.num (.finite 3.5))) = some y ∧
      |y - 3.5| ≤ 1/1000) ∧
    (∃ y : ℚ, normaliseLineValue (formatLine (.num (.finite 0))) = some y ∧
      |y - 0| ≤ 1/1000) ∧
    (∃ y : ℚ, normaliseLineValue (formatLine (.num (.finite 110.125))) = some y ∧
      |y - 110.125| ≤ 1/1000) := by
  refine ⟨⟨-7, by with_unfolding_all decide, by norm_num⟩,
    ⟨-7.5, by with_unfolding_all decide, by norm_num⟩,
    ⟨3.5, by with_unfolding_all decide, by norm_num⟩,
    ⟨0, by with_unfolding_all decide, by norm_num⟩,
    ⟨110.125, by with_unfolding_all decide, by norm_num⟩⟩

/-- C5: the unicode string "−3½" normalises to -3.5, and the empty string,
an absent value and "abc" all normalise to `null`. -/
theorem normaliseLine_unicode_and_degenerate :
    normaliseLineValue (.str "−3½") = some (-3.5) ∧
    normaliseLineValue (.str "") = none ∧
    normaliseLineValue .null = none ∧
    normaliseLineValue (.str "abc") = none := by
  refine ⟨by with_unfolding_all decide, by with_unfolding_all decide, rfl,
    by with_unfolding_all decide⟩

/-- A rational has at most three decimal digits of precision when scaling
by 1000 makes it an integer. -/
def hasAtMost3Decimals (q : ℚ) : Prop := (q * 1000).den = 1

theorem roundTo3_hasAtMost3Decimals (q : ℚ) : hasAtMost3Decimals (roundTo3 q) := by
  unfold hasAtMost3Decimals roundTo3
  rw [div_mul_cancel₀ _ (by norm_num : (1000 : ℚ) ≠ 0)]
  exact Rat.den_intCast _

/-- C6 counterexample: `normaliseLineValue` returns a finite numeric input
unchanged, so the input 1.2345 produces a canonical value with four decimal
digits, violating the claimed ≤3-decimals invariant. -/
theorem normaliseLineValue_precision_counterexample :
    normaliseLineValue (.num (.finite (12345/10000))) = some (12345/10000) ∧
    ¬ hasAtMost3Decimals (12345/10000 : ℚ) := by
  refine ⟨rfl, ?_⟩
  unfold hasAtMost3Decimals
  with_unfolding_all decide

/-- C6 amended: for every raw input the canonical line value is absent or a
finite rational; it has at most three decimal digits whenever the input was
not already a finite number, while a finite numeric input is returned
unchanged (with whatever precision it had). -/
theorem normaliseLineValue_canonical (line : RawVal) :
    normaliseLineValue line = none ∨
    (∃ q, normaliseLineValue line = some q ∧
      ((∃ j : ℚ, line = .num (.finite j) ∧ q = j) ∨ hasAtMost3Decimals q)) := by
  cases line with
  | null => exact Or.inl rfl
  | num j =>
    cases j with
    | finite q => exact Or.inr ⟨q, rfl, Or.inl ⟨q, rfl, rfl⟩⟩
    | inf n => exact Or.inl rfl
    | nan => exact Or.inl rfl
  | str s =>
    simp only [normaliseLineValue]
    split
    · exact Or.inl rfl
    · split
      · exact Or.inl rfl
      · split
        · next q heq =>
          exact Or.inr ⟨roundTo3 q, rfl, Or.inr (roundTo3_hasAtMost3Decimals q)⟩
        · exact Or.inl rfl

/-- One leaderboard row. -/
structure LBEntry where
  player : String
  total : ℚ
  weeksPlayed : ℕ
  average : ℚ
deriving DecidableEq, Repr

/-- The finite numeric weekly scores of one standings row:
`Object.values(weeks).filter(s => typeof s === 'number' && Number.isFinite(s))`
(numeric strings do not count here). -/
def finiteScores (wm : WeekMap) : List ℚ :=
  wm.filterMap fun kv =>
    match kv.2 with
    | .num (.finite q) => some q
    | _ => none

/-- The `computeLeaderboard` comparator as the boolean order used by the
stable sort (`b.total - a.total`, then `b.weeksPlayed - a.weeksPlayed`,
then `b.average - a.average`, then `a.player.localeCompare(b.player)`,
with `localeCompare` idealised as code-unit string order). -/
def lbLEb (a b : LBEntry) : Bool :=
  if a.total = b.total then
    if a.weeksPlayed = b.weeksPlayed then
      if a.average = b.average then decide (a.player ≤ b.player)
      else decide (b.average < a.average)
    else decide (b.weeksPlayed < a.weeksPlayed)
  else decide (b.total < a.total)

/-- `computeLeaderboard` from app.js: for each standings row whose value is
an object, keep the finite numeric scores; skip players with none; compute
total, weeks played and average; sort with the leaderboard comparator. -/
def computeLeaderboard (standings : Standings) : List LBEntry :=
  let entries := standings.filterMap fun pw =>
    match pw.2 with
    | none => none
    | some wm =>
      let scores := finiteScores wm
      if scores.isEmpty then none
      else
        let total := scores.foldl (· + ·) 0
        some ⟨pw.1, total, scores.length, total / (scores.length : ℚ)⟩
  entries.mergeSort lbLEb

/-- The leaderboard order stated declaratively: total descending, ties by
weeks played descending, then average descending, then player name
ascending. -/
def lbOrder (a b : LBEntry) : Prop :=
  b.total < a.total ∨
    (a.total = b.total ∧
      (b.weeksPlayed < a.weeksPlayed ∨
        (a.weeksPlayed = b.weeksPlayed ∧
          (b.average < a.average ∨
            (a.average = b.average ∧ a.player ≤ b.player)))))

/-- The leaderboard order as a lexicographic key into a linear order. -/
def lbKey (e : LBEntry) : Lex (ℚ × Lex (ℤ × Lex (ℚ × String))) :=
  toLex (-e.total, toLex (-(e.weeksPlayed : ℤ), toLex (-e.average, e.player)))

theorem lbOrder_iff_key (a b : LBEntry) : lbOrder a b ↔ lbKey a ≤ lbKey b := by
  unfold lbOrder lbKey
  simp only [Prod.Lex.le_iff, Prod.Lex.lt_iff, neg_lt_neg_iff, neg_inj,
    Nat.cast_lt, Nat.cast_inj]

theorem lbLEb_iff (a b : LBEntry) : lbLEb a b = true ↔ lbOrder a b := by
  unfold lbLEb lbOrder
  split_ifs with h1 h2 h3
  · simp [h1, h2, h3, lt_self_iff_false]
  · simp [h1, h2, h3, lt_self_iff_false]
  · simp [h1, h2, lt_self_iff_false]
  · simp [h1]

theorem lbLEb_trans (a b c : LBEntry) (hab : lbLEb a b = true) (hbc : lbLEb b c = true) :
    lbLEb a c = true := by
  rw [lbLEb_iff, lbOrder_iff_key] at *
  exact le_trans hab hbc

theorem lbLEb_total (a b : LBEntry) : lbLEb a b || lbLEb b a := by
  rcases le_total (lbKey a) (lbKey b) with h | h
  · rw [Bool.or_eq_true, lbLEb_iff, lbOrder_iff_key]
    exact Or.inl h
  · rw [Bool.or_eq_true, lbLEb_iff b a, lbOrder_iff_key]
    exact Or.inr h

theorem foldl_add_eq_sum (l : List ℚ) : ∀ init : ℚ, l.foldl (· + ·) init = init + l.sum := by
  induction l with
  | nil => intro init; simp
  | cons x xs ih =>
    intro init
    simp only [List.foldl_cons, List.sum_cons, ih]
    ring

/-- C3: the leaderboard contains exactly the standings players with at
least one finite numeric weekly score, carrying total = sum of those
scores, weeksPlayed = their count and average = total/weeksPlayed, and the
rows come sorted by total descending, then weeks played descending, then
average descending, then player name ascending; that relation is total. -/
theorem computeLeaderboard_rank (standings : Standings) :
    (∀ e ∈ computeLeaderboard standings,
      ∃ wm : WeekMap, (e.player, some wm) ∈ standings ∧ finiteScores wm ≠ [] ∧
        e.total = (finiteScores wm).sum ∧
        e.weeksPlayed = (finiteScores wm).length ∧
        e.average = e.total / (e.weeksPlayed : ℚ)) ∧
    (∀ p : String, ∀ wm : WeekMap, (p, some wm) ∈ standings → finiteScores wm ≠ [] →
      ∃ e ∈ computeLeaderboard standings, e.player = p ∧
        e.total = (finiteScores wm).sum ∧
        e.weeksPlayed = (finiteScores wm).length ∧
        e.average = e.total / (e.weeksPlayed : ℚ)) ∧
    List.Pairwise lbOrder (computeLeaderboard standings) ∧
    (∀ a b : LBEntry, lbOrder a b ∨ lbOrder b a) := by
  have hmem : ∀ e : LBEntry, e ∈ computeLeaderboard standings ↔
      e ∈ standings.filterMap fun pw =>
        match pw.2 with
        | none => none
        | some wm =>
          let scores := finiteScores wm
          if scores.isEmpty then none
          else
            let total := scores.foldl (· + ·) 0
            some ⟨pw.1, total, scores.length, total / (scores.length : ℚ)⟩ := by
    intro e
    exact (List.mergeSort_perm _ lbLEb).mem_iff
  refine ⟨?_, ?_, ?_, ?_⟩
  · intro e he
    rw [hmem, List.mem_filterMap] at he
    obtain ⟨pw, hpw, hf⟩ := he
    match hval : pw.2 with
    | none => rw [hval] at hf; exact absurd hf (by simp)
    | some wm =>
      rw [hval] at hf
      simp only at hf
      by_cases hemp : (finiteScores wm).isEmpty
      · rw [if_pos hemp] at hf; exact absurd hf (by simp)
      · rw [if_neg hemp] at hf
        obtain rfl := Option.some_injective _ hf
        refine ⟨wm, ?_, ?_, ?_, rfl, rfl⟩
        · have : (pw.1, some wm) = pw := by
            rw [← hval]
          rw [this]; exact hpw
        · simpa [List.isEmpty_iff] using hemp
        · simp [foldl_add_eq_sum]
  · intro p wm hpmem hne
    have hf : (fun pw : String × Option WeekMap =>
        match pw.2 with
        | none => none
        | some wm =>
          let scores := finiteScores wm
          if scores.isEmpty then none
          else
            let total := scores.foldl (· + ·) 0
            some (⟨pw.1, total, scores.length, total / (scores.length : ℚ)⟩ : LBEntry))
          (p, some wm) =
        some ⟨p, (finiteScores wm).foldl (· + ·) 0, (finiteScores wm).length,
          (finiteScores wm).foldl (· + ·) 0 / ((finiteScores wm).length : ℚ)⟩ := by
      simp only
      rw [if_neg (by simpa [List.isEmpty_iff] using hne)]
    refine ⟨⟨p, (finiteScores wm).foldl (· + ·) 0, (finiteScores wm).length,
      (finiteScores wm).foldl (· + ·) 0 / ((finiteScores wm).length : ℚ)⟩, ?_, rfl,
      by simp [foldl_add_eq_sum], rfl, rfl⟩
    rw [hmem, List.mem_filterMap]
    exact ⟨(p, some wm), hpmem, hf⟩
  · have hs := @List.sorted_mergeSort LBEntry lbLEb lbLEb_trans lbLEb_total
      (standings.filterMap fun pw =>
        match pw.2 with
        | none => none
        | some wm =>
          let scores := finiteScores wm
          if scores.isEmpty then none
          else
            let total := scores.foldl (· + ·) 0
            some ⟨pw.1, total, scores.length, total / (scores.length : ℚ)⟩)
    exact hs.imp fun {a b} h => (lbLEb_iff a b).mp h
  · intro a b
    rcases le_total (lbKey a) (lbKey b) with h | h
    · exact Or.inl ((lbOrder_iff_key a b).mpr h)
    · exact Or.inr ((lbOrder_iff_key b a).mpr h)

/-- A concrete application of `computeLeaderboard_rank`: a player with one
finite score of 3 appears on the leaderboard with total 3 over one week. -/
theorem computeLeaderboard_rank_witness :
    ∃ e ∈ computeLeaderboard [("Ann", some [("W1", RawVal.num (.finite 3))])],
      e.player = "Ann" ∧
      e.total = (finiteScores [("W1", RawVal.num (.finite 3))]).sum ∧
      e.weeksPlayed = (finiteScores [("W1", RawVal.num (.finite 3))]).length ∧
      e.average = e.total / (e.weeksPlayed : ℚ) :=
  (computeLeaderboard_rank _).2.1 "Ann" _ (by simp) (by with_unfolding_all decide)

/-- One game row: an official schedule entry or a synthesized best-bet
entry (raw fields; `player` tags a synthesized entry with the originating
player's name). -/
structure Game where
  team : RawVal
  opponent : RawVal
  line : RawVal
  opponent_line : RawVal
  date : RawVal
  time : RawVal
  player : RawVal
deriving DecidableEq, Repr

/-- A week of the dataset; `schedule`/`players` are `none` when absent or
not arrays, and array slots may be `null`. -/
structure Week where
  name : RawVal
  schedule : Option (List (Option Game))
  players : Option (List (Option Player))
deriving DecidableEq, Repr

/-- The running per-team accumulator of `aggregateTeamStats`
(`{ team, betCount, totalPoints, weekNames: Set }`, the set kept as its
insertion-ordered duplicate-free list). -/
structure TeamAcc where
  team : String
  betCount : ℕ
  totalPoints : JSNum
  weekNames : List String
deriving DecidableEq, Repr

/-- One aggregated output row of `aggregateTeamStats`. -/
structure TeamStat where
  team : String
  betCount : ℕ
  totalPoints : JSNum
  averagePoints : JSNum
  weekCount : ℕ
deriving DecidableEq, Repr

/-- The trimmed team name of a pick
(`typeof pick.team === 'string' ? pick.team.trim() : ''`), `none` when that
is empty, in which case the pick is skipped. -/
def trimmedTeamName (p : Pick) : Option String :=
  match p.team with
  | .str s =>
    let t := trimChars s.data
    if t.isEmpty then none else some (String.mk t)
  | _ => none

/-- A week name is recorded in the per-team set only when it is a string
with a nonempty trim (`typeof week.name === 'string' && week.name.trim()`);
the raw untrimmed name is what gets stored. -/
def validWeekName (v : RawVal) : Option String :=
  match v with
  | .str s => if (trimChars s.data).isEmpty then none else some s
  | _ => none

/-- `Set.prototype.add`: append when absent, preserving insertion order. -/
def insertIfAbsent (l : List String) (x : String) : List String :=
  if x ∈ l then l else l ++ [x]

/-- The first-occurrence deduplication of a list, the key order produced by
an insertion-ordered JS `Map`/`Set`. -/
def firstOccurrences (xs : List String) : List String := xs.foldl insertIfAbsent []

/-- First-match association-list lookup, the `Map.get`/`Map.has` model
(string keys compare by value). -/
def alistLookup {β : Type} : List (String × β) → String → Option β
  | [], _ => none
  | kv :: rest, k => if kv.1 = k then some kv.2 else alistLookup rest k

/-- The JS `Map` access pattern of `aggregateTeamStats`: mutate the
existing entry in place, or insert a freshly created entry at the end
(insertion order preserved). -/
def mapUpdate (stats : List (String × TeamAcc)) (k : String) (f : TeamAcc → TeamAcc) :
    List (String × TeamAcc) :=
  if (alistLookup stats k).isSome then
    stats.map fun kv => if kv.1 = k then (kv.1, f kv.2) else kv
  else stats ++ [(k, f ⟨k, 0, .finite 0, []⟩)]

/-- The per-pick body of the `aggregateTeamStats` triple loop: skip picks
with an empty trimmed team, bump `betCount`, add `awarded_points` when it
is of number type (else add 0 when `points` parses, else nothing), and
record the week name. -/
def teamStep (weekName : RawVal) (stats : List (String × TeamAcc)) (pick : Pick) :
    List (String × TeamAcc) :=
  match trimmedTeamName pick with
  | none => stats
  | some teamName =>
    let points := parseScoreValue pick.points
    let awarded : Option JSNum :=
      match pick.awarded_points with
      | .num j => some j
      | _ => none
    mapUpdate stats teamName fun e =>
      { e with
        betCount := e.betCount + 1
        totalPoints :=
          match awarded with
          | some j => e.totalPoints.add j
          | none => if points.isSome then e.totalPoints.add (.finite 0) else e.totalPoints
        weekNames :=
          match validWeekName weekName with
          | some n => insertIfAbsent e.weekNames n
          | none => e.weekNames }

/-- The innermost `aggregateTeamStats` loop: over one player's picks. -/
def picksFold (wn : RawVal) (st : List (String × TeamAcc)) (picks : List (Option Pick)) :
    List (String × TeamAcc) :=
  picks.foldl
    (fun st3 pk =>
      match pk with
      | none => st3
      | some pick => teamStep wn st3 pick)
    st

/-- The middle `aggregateTeamStats` loop: over one week's players. -/
def playersFold (wn : RawVal) (st : List (String × TeamAcc))
    (players : List (Option Player)) : List (String × TeamAcc) :=
  players.foldl
    (fun st2 pl =>
      match pl with
      | none => st2
      | some p =>
        match p.picks with
        | none => st2
        | some picks => picksFold wn st2 picks)
    st

/-- The outer `aggregateTeamStats` loop: over the weeks in scope. -/
def weeksFold (st : List (String × TeamAcc)) (ws : List (Option Week)) :
    List (String × TeamAcc) :=
  ws.foldl
    (fun st1 w =>
      match w with
      | none => st1
      | some week =>
        match week.players with
        | none => st1
        | some players => playersFold week.name st1 players)
    st

/-- The projection from a finished accumulator entry to an output row
(`averagePoints = betCount ? totalPoints / betCount : 0`,
`weekCount = weekNames.size`). -/
def finalTeamRow (kv : String × TeamAcc) : TeamStat :=
  ⟨kv.2.team, kv.2.betCount, kv.2.totalPoints,
    if kv.2.betCount ≠ 0 then kv.2.totalPoints.divNat kv.2.betCount else .finite 0,
    kv.2.weekNames.length⟩

/-- `aggregateTeamStats` from app.js: the nested week/player/pick loops
accumulating into the insertion-ordered map, then the projection to output
rows. -/
def aggregateTeamStats (weeks : Option (List (Option Week))) : List TeamStat :=
  match weeks with
  | none => []
  | some ws => (weeksFold [] ws).map finalTeamRow

/-- The week-name/pick pairs visited by the `aggregateTeamStats` loops, in
visit order. -/
def pickEvents (ws : List (Option Week)) : List (RawVal × Pick) :=
  ws.flatMap fun w =>
    match w with
    | none => []
    | some week =>
      match week.players with
      | none => []
      | some players =>
        players.flatMap fun pl =>
          match pl with
          | none => []
          | some p =>
            match p.picks with
            | none => []
            | some picks => (picks.filterMap id).map fun pk => (week.name, pk)

/-- The events attributed to one team. -/
def eventsFor (t : String) (events : List (RawVal × Pick)) : List (RawVal × Pick) :=
  events.filter fun e => trimmedTeamName e.2 = some t

/-- What one visited pick adds to its team's `totalPoints`: the raw
`awarded_points` when of number type (NaN and infinities included),
otherwise 0. -/
def eventContribution (e : RawVal × Pick) : JSNum :=
  match e.2.awarded_points with
  | .num j => j
  | _ => .finite 0

theorem jsAdd_finite_zero (x : JSNum) : x.add (.finite 0) = x := by
  cases x <;> simp [JSNum.add]

/-- One step of the flattened event fold. -/
def eventStep (st : List (String × TeamAcc)) (e : RawVal × Pick) : List (String × TeamAcc) :=
  teamStep e.1 st e.2

/-- The accumulator state after all visited picks. -/
def statsOf (events : List (RawVal × Pick)) : List (String × TeamAcc) :=
  events.foldl eventStep []

theorem picksFold_eq (wn : RawVal) (st : List (String × TeamAcc))
    (picks : List (Option Pick)) :
    picksFold wn st picks =
      ((picks.filterMap id).map fun pk => ((wn, pk) : RawVal × Pick)).foldl eventStep st := by
  induction picks generalizing st with
  | nil => rfl
  | cons pk rest ih =>
    cases pk with
    | none => simpa [picksFold] using ih st
    | some pick =>
      have := ih (teamStep wn st pick)
      simpa [picksFold, eventStep] using this

theorem playersFold_eq (wn : RawVal) (st : List (String × TeamAcc))
    (players : List (Option Player)) :
    playersFold wn st players =
      (players.flatMap fun pl =>
        match pl with
        | none => []
        | some p =>
          match p.picks with
          | none => []
          | some picks =>
            (picks.filterMap id).map fun pk => ((wn, pk) : RawVal × Pick)).foldl
        eventStep st := by
  induction players generalizing st with
  | nil => rfl
  | cons pl rest ih =>
    cases pl with
    | none => simpa [playersFold] using ih st
    | some p =>
      cases hp : p.picks with
      | none =>
        simp only [playersFold, List.foldl_cons, List.flatMap_cons, hp]
        simpa [playersFold] using ih st
      | some picks =>
        simp only [playersFold, List.foldl_cons, List.flatMap_cons, hp, List.foldl_append]
        rw [← picksFold_eq]
        have := ih (picksFold wn st picks)
        simpa [playersFold] using this

theorem weeksFold_eq (st : List (String × TeamAcc)) (ws : List (Option Week)) :
    weeksFold st ws = (pickEvents ws).foldl eventStep st := by
  induction ws generalizing st with
  | nil => rfl
  | cons w rest ih =>
    cases w with
    | none => simpa [weeksFold, pickEvents] using ih st
    | some week =>
      cases hp : week.players with
      | none =>
        simp only [weeksFold, List.foldl_cons, pickEvents, List.flatMap_cons, hp]
        simpa [weeksFold, pickEvents] using ih st
      | some players =>
        simp only [weeksFold, List.foldl_cons, pickEvents, List.flatMap_cons, hp,
          List.foldl_append]
        rw [← playersFold_eq]
        have := ih (playersFold week.name st players)
        simpa [weeksFold, pickEvents] using this

theorem aggregateTeamStats_eq_statsOf (ws : List (Option Week)) :
    aggregateTeamStats (some ws) = (statsOf (pickEvents ws)).map finalTeamRow := by
  simp [aggregateTeamStats, weeksFold_eq, statsOf]

/-- The declarative value of one team's finished accumulator. -/
def specAcc (t : String) (events : List (RawVal × Pick)) : TeamAcc :=
  ⟨t, (eventsFor t events).length,
    ((eventsFor t events).map eventContribution).foldl JSNum.add (.finite 0),
    ((eventsFor t events).filterMap fun e => validWeekName e.1).foldl insertIfAbsent []⟩

theorem mem_insertIfAbsent (l : List String) (x y : String) :
    y ∈ insertIfAbsent l x ↔ y ∈ l ∨ y = x := by
  unfold insertIfAbsent
  split
  · next h => constructor
              · exact fun hy => Or.inl hy
              · rintro (hy | rfl)
                · exact hy
                · exact h
  · simp

theorem mem_foldl_insertIfAbsent (xs : List String) (l0 : List String) (x : String) :
    x ∈ xs.foldl insertIfAbsent l0 ↔ x ∈ l0 ∨ x ∈ xs := by
  induction xs generalizing l0 with
  | nil => simp
  | cons y ys ih =>
    simp only [List.foldl_cons, ih, mem_insertIfAbsent, List.mem_cons]
    tauto

theorem mem_firstOccurrences (xs : List String) (x : String) :
    x ∈ firstOccurrences xs ↔ x ∈ xs := by
  unfold firstOccurrences
  rw [mem_foldl_insertIfAbsent]
  simp

theorem nodup_insertIfAbsent (l : List String) (x : String) (h : l.Nodup) :
    (insertIfAbsent l x).Nodup := by
  unfold insertIfAbsent
  split
  · exact h
  · next hx => simpa [List.nodup_append, h] using hx

theorem nodup_foldl_insertIfAbsent (xs : List String) (l0 : List String) (h : l0.Nodup) :
    (xs.foldl insertIfAbsent l0).Nodup := by
  induction xs generalizing l0 with
  | nil => exact h
  | cons y ys ih => exact ih _ (nodup_insertIfAbsent _ _ h)

theorem nodup_firstOccurrences (xs : List String) : (firstOccurrences xs).Nodup :=
  nodup_foldl_insertIfAbsent xs [] List.nodup_nil

theorem length_foldl_insertIfAbsent (xs : List String) :
    (xs.foldl insertIfAbsent []).length = xs.toFinset.card := by
  have hnd : (xs.foldl insertIfAbsent []).Nodup := nodup_foldl_insertIfAbsent xs [] List.nodup_nil
  have hts : (xs.foldl insertIfAbsent []).toFinset = xs.toFinset := by
    ext a
    simp [List.mem_toFinset, mem_foldl_insertIfAbsent]
  rw [← List.toFinset_card_of_nodup hnd, hts]

theorem firstOccurrences_append_singleton (xs : List String) (x : String) :
    firstOccurrences (xs ++ [x]) = insertIfAbsent (firstOccurrences xs) x := by
  unfold firstOccurrences
  rw [List.foldl_append]
  rfl

theorem alistLookup_append {β : Type} (l1 l2 : List (String × β)) (k : String) :
    alistLookup (l1 ++ l2) k =
      match alistLookup l1 k with
      | some v => some v
      | none => alistLookup l2 k := by
  induction l1 with
  | nil => rfl
  | cons kv rest ih =>
    by_cases h : kv.1 = k
    · simp [alistLookup, h]
    · simp [alistLookup, h, ih]

theorem alistLookup_map_ite (st : List (String × TeamAcc)) (tn t : String)
    (f : TeamAcc → TeamAcc) :
    alistLookup (st.map fun kv => if kv.1 = tn then (kv.1, f kv.2) else kv) t =
      if t = tn then (alistLookup st tn).map f else alistLookup st t := by
  induction st with
  | nil => simp [alistLookup]
  | cons kv rest ih =>
    by_cases hk : kv.1 = tn
    · by_cases ht : t = tn
      · subst ht
        simp [alistLookup, hk]
      · have h2 : ¬kv.1 = t := by
          rw [hk]
          exact fun hc => ht hc.symm
        simp only [List.map_cons, if_pos hk, alistLookup, h2, if_false, if_neg ht, ih,
          if_neg h2]
    · by_cases ht : t = tn
      · subst ht
        have h2 : ¬kv.1 = t := hk
        simp only [List.map_cons, if_neg hk, alistLookup, if_neg h2, ih, if_pos rfl]
      · simp only [List.map_cons, if_neg hk, alistLookup, ih, if_neg ht]

theorem map_fst_map_ite (st : List (String × TeamAcc)) (tn : String) (f : TeamAcc → TeamAcc) :
    (st.map fun kv => if kv.1 = tn then (kv.1, f kv.2) else kv).map Prod.fst =
      st.map Prod.fst := by
  rw [List.map_map]
  apply List.map_congr_left
  intro kv _
  by_cases h : kv.1 = tn <;> simp [h]

theorem eventsFor_eq_nil_of_not_mem (t : String) (events : List (RawVal × Pick))
    (h : t ∉ events.filterMap fun e => trimmedTeamName e.2) :
    eventsFor t events = [] := by
  rw [eventsFor, List.filter_eq_nil_iff]
  intro e he hc
  rw [decide_eq_true_eq] at hc
  exact h (List.mem_filterMap.mpr ⟨e, he, hc⟩)

theorem eventsFor_append_ne (t : String) (events : List (RawVal × Pick)) (e : RawVal × Pick)
    (h : trimmedTeamName e.2 ≠ some t) :
    eventsFor t (events ++ [e]) = eventsFor t events := by
  unfold eventsFor
  rw [List.filter_append]
  simp [h]

theorem eventsFor_append_eq (t : String) (events : List (RawVal × Pick)) (e : RawVal × Pick)
    (h : trimmedTeamName e.2 = some t) :
    eventsFor t (events ++ [e]) = eventsFor t events ++ [e] := by
  unfold eventsFor
  rw [List.filter_append]
  simp [h]

theorem specAcc_append_ne (t : String) (events : List (RawVal × Pick)) (e : RawVal × Pick)
    (h : trimmedTeamName e.2 ≠ some t) :
    specAcc t (events ++ [e]) = specAcc t events := by
  unfold specAcc
  rw [eventsFor_append_ne t events e h]

theorem alistLookup_of_mem_nodup {β : Type} (st : List (String × β))
    (h : (st.map Prod.fst).Nodup) (kv : String × β) (hm : kv ∈ st) :
    alistLookup st kv.1 = some kv.2 := by
  induction st with
  | nil => simp at hm
  | cons hd rest ih =>
    rw [List.map_cons, List.nodup_cons] at h
    rcases List.mem_cons.mp hm with rfl | hm'
    · simp [alistLookup]
    · have hne : ¬hd.1 = kv.1 := by
        intro hc
        exact h.1 (hc ▸ List.mem_map.mpr ⟨kv, hm', rfl⟩)
      simp [alistLookup, hne, ih h.2 hm']

/-- What `teamStep` does to the accumulator entry of the pick's team. -/
def accUpdate (e : RawVal × Pick) (acc : TeamAcc) : TeamAcc :=
  { acc with
    betCount := acc.betCount + 1
    totalPoints :=
      match (match e.2.awarded_points with | .num j => some j | _ => none) with
      | some j => acc.totalPoints.add j
      | none =>
        if (parseScoreValue e.2.points).isSome then acc.totalPoints.add (.finite 0)
        else acc.totalPoints
    weekNames :=
      match validWeekName e.1 with
      | some n => insertIfAbsent acc.weekNames n
      | none => acc.weekNames }

theorem teamStep_eq (wn : RawVal) (st : List (String × TeamAcc)) (pick : Pick) :
    teamStep wn st pick =
      match trimmedTeamName pick with
      | none => st
      | some tn => mapUpdate st tn (accUpdate (wn, pick)) := by
  unfold teamStep accUpdate
  cases trimmedTeamName pick <;> rfl

theorem accUpdate_specAcc (t : String) (events : List (RawVal × Pick)) (e : RawVal × Pick)
    (h : trimmedTeamName e.2 = some t) :
    accUpdate e (specAcc t events) = specAcc t (events ++ [e]) := by
  unfold accUpdate specAcc
  rw [eventsFor_append_eq t events e h]
  refine TeamAcc.mk.injEq _ _ _ _ _ _ _ _ ▸ ?_
  refine ⟨rfl, by simp, ?_, ?_⟩
  · rw [List.map_append, List.foldl_append]
    simp only [List.map_cons, List.map_nil, List.foldl_cons, List.foldl_nil]
    cases haw : e.2.awarded_points with
    | num j => simp [eventContribution, haw]
    | str s =>
      simp only [eventContribution, haw]
      split
      · rfl
      · rw [jsAdd_finite_zero]
    | null =>
      simp only [eventContribution, haw]
      split
      · rfl
      · rw [jsAdd_finite_zero]
  · rw [List.filterMap_append, List.foldl_append]
    cases hv : validWeekName e.1 with
    | some n => simp [hv]
    | none => simp [hv]

theorem statsOf_snoc (events : List (RawVal × Pick)) (e : RawVal × Pick) :
    statsOf (events ++ [e]) = eventStep (statsOf events) e := by
  unfold statsOf
  rw [List.foldl_append]
  rfl

theorem statsOf_invariant (events : List (RawVal × Pick)) :
    (statsOf events).map Prod.fst =
      firstOccurrences (events.filterMap fun e => trimmedTeamName e.2) ∧
    ∀ t : String, alistLookup (statsOf events) t =
      if t ∈ events.filterMap (fun e => trimmedTeamName e.2) then some (specAcc t events)
      else none := by
  induction events using List.reverseRecOn with
  | nil =>
    refine ⟨rfl, fun t => ?_⟩
    simp [statsOf, alistLookup]
  | append_singleton events e ih =>
    obtain ⟨ih1, ih2⟩ := ih
    rw [statsOf_snoc]
    cases hteam : trimmedTeamName e.2 with
    | none =>
      have hflt : (events ++ [e]).filterMap (fun ev => trimmedTeamName ev.2) =
          events.filterMap fun ev => trimmedTeamName ev.2 := by
        rw [List.filterMap_append]
        simp [hteam]
      have hstep : eventStep (statsOf events) e = statsOf events := by
        unfold eventStep
        rw [teamStep_eq, hteam]
      rw [hstep, hflt]
      refine ⟨ih1, fun t => ?_⟩
      rw [ih2 t]
      by_cases hmem : t ∈ events.filterMap fun ev => trimmedTeamName ev.2
      · rw [if_pos hmem, if_pos hmem,
          specAcc_append_ne t events e (by rw [hteam]; exact fun hc => Option.noConfusion hc)]
      · rw [if_neg hmem, if_neg hmem]
    | some tn =>
      have hflt : (events ++ [e]).filterMap (fun ev => trimmedTeamName ev.2) =
          (events.filterMap fun ev => trimmedTeamName ev.2) ++ [tn] := by
        rw [List.filterMap_append]
        simp [hteam]
      have hstep : eventStep (statsOf events) e =
          mapUpdate (statsOf events) tn (accUpdate e) := by
        unfold eventStep
        rw [teamStep_eq, hteam]
      by_cases hmem : tn ∈ events.filterMap fun ev => trimmedTeamName ev.2
      · have hsome : (alistLookup (statsOf events) tn).isSome := by
          rw [ih2 tn, if_pos hmem]
          rfl
        have hmu : mapUpdate (statsOf events) tn (accUpdate e) =
            (statsOf events).map fun kv => if kv.1 = tn then (kv.1, accUpdate e kv.2) else kv := by
          unfold mapUpdate
          rw [if_pos hsome]
        rw [hstep, hmu, hflt]
        constructor
        · rw [map_fst_map_ite, ih1, firstOccurrences_append_singleton]
          unfold insertIfAbsent
          rw [if_pos ((mem_firstOccurrences _ tn).mpr hmem)]
        · intro t
          rw [alistLookup_map_ite]
          by_cases ht : t = tn
          · subst ht
            rw [if_pos rfl, ih2 t, if_pos hmem, if_pos (by simp),
              ← accUpdate_specAcc t events e hteam]
            rfl
          · rw [if_neg ht, ih2 t]
            have hne2 : trimmedTeamName e.2 ≠ some t := by
              rw [hteam]
              exact fun hc => ht (Option.some_injective _ hc).symm
            by_cases h3 : t ∈ events.filterMap fun ev => trimmedTeamName ev.2
            · rw [if_pos h3, if_pos (by simp [h3]), specAcc_append_ne t events e hne2]
            · rw [if_neg h3, if_neg (by simp [h3, ht])]
      · have hnone : alistLookup (statsOf events) tn = none := by
          rw [ih2 tn, if_neg hmem]
        have hmu : mapUpdate (statsOf events) tn (accUpdate e) =
            statsOf events ++ [(tn, accUpdate e ⟨tn, 0, .finite 0, []⟩)] := by
          unfold mapUpdate
          rw [hnone]
          rfl
        have hnil : eventsFor tn events = [] := eventsFor_eq_nil_of_not_mem tn events hmem
        have hspec0 : specAcc tn events = ⟨tn, 0, .finite 0, []⟩ := by
          unfold specAcc
          rw [hnil]
          rfl
        rw [hstep, hmu, hflt]
        constructor
        · rw [List.map_append, ih1, firstOccurrences_append_singleton]
          unfold insertIfAbsent
          rw [if_neg (fun hc => hmem ((mem_firstOccurrences _ tn).mp hc))]
          rfl
        · intro t
          rw [alistLookup_append, ih2 t]
          by_cases ht : t = tn
          · subst ht
            rw [if_neg hmem]
            have hsng : alistLookup [(t, accUpdate e (⟨t, 0, .finite 0, []⟩ : TeamAcc))] t =
                some (accUpdate e ⟨t, 0, .finite 0, []⟩) := by
              simp [alistLookup]
            simp only [hsng]
            rw [if_pos (by simp), ← hspec0, accUpdate_specAcc t events e hteam]
          · have hne2 : trimmedTeamName e.2 ≠ some t := by
              rw [hteam]
              exact fun hc => ht (Option.some_injective _ hc).symm
            have htn : ¬tn = t := fun hc => ht hc.symm
            have hsng : alistLookup [(tn, accUpdate e (⟨tn, 0, .finite 0, []⟩ : TeamAcc))] t =
                none := by
              simp [alistLookup, htn]
            by_cases h3 : t ∈ events.filterMap fun ev => trimmedTeamName ev.2
            · rw [if_pos h3]
              simp only
              rw [if_pos (by simp [h3]), specAcc_append_ne t events e hne2]
            · rw [if_neg h3]
              simp only [hsng]
              rw [if_neg (by simp [h3, ht])]

/-- The spec's aggregation example: two picks for "Eagles" in different
weeks, one graded +3 and one ungraded. -/
def eaglesWeeks : List (Option Week) :=
  [some ⟨.str "Week 1", some [], some [some ⟨"P1", .null, none,
      some [some ⟨.str "Eagles", .num (.finite 3), .num (.finite 3), .str "win"⟩]⟩]⟩,
   some ⟨.str "Week 2", some [], some [some ⟨"P1", .null, none,
      some [some ⟨.str "Eagles", .num (.finite 2), .null, .str "pending"⟩]⟩]⟩]

/-- C7: every aggregated row is keyed by a trimmed nonempty team name (the
row list carries each such name exactly once, in first-pick order); its
`betCount` counts the picks for that team, its `totalPoints` accumulates
`awarded_points` when of number type and 0 otherwise, and its `weekCount`
is the number of distinct recorded week names among that team's picks; on
the Eagles example this gives betCount 2, totalPoints 3, weekCount 2. -/
theorem aggregateTeamStats_spec (ws : List (Option Week)) :
    ((aggregateTeamStats (some ws)).map (fun ts => ts.team) =
      firstOccurrences ((pickEvents ws).filterMap fun e => trimmedTeamName e.2)) ∧
    (∀ ts ∈ aggregateTeamStats (some ws),
      ts.betCount = (eventsFor ts.team (pickEvents ws)).length ∧
      ts.totalPoints =
        ((eventsFor ts.team (pickEvents ws)).map eventContribution).foldl JSNum.add
          (.finite 0) ∧
      ts.weekCount =
        ((eventsFor ts.team (pickEvents ws)).filterMap
          fun e => validWeekName e.1).toFinset.card) ∧
    aggregateTeamStats (some eaglesWeeks) =
      [⟨"Eagles", 2, .finite 3, .finite (3/2), 2⟩] := by
  obtain ⟨h1, h2⟩ := statsOf_invariant (pickEvents ws)
  have hnd : ((statsOf (pickEvents ws)).map Prod.fst).Nodup := by
    rw [h1]
    exact nodup_firstOccurrences _
  have hkv : ∀ kv ∈ statsOf (pickEvents ws), kv.2 = specAcc kv.1 (pickEvents ws) := by
    intro kv hm
    have hl := alistLookup_of_mem_nodup _ hnd kv hm
    have hmemf : kv.1 ∈ (pickEvents ws).filterMap fun e => trimmedTeamName e.2 := by
      have hmm : kv.1 ∈ (statsOf (pickEvents ws)).map Prod.fst :=
        List.mem_map.mpr ⟨kv, hm, rfl⟩
      rw [h1] at hmm
      exact (mem_firstOccurrences _ _).mp hmm
    rw [h2 kv.1, if_pos hmemf] at hl
    exact (Option.some_injective _ hl).symm
  refine ⟨?_, ?_, ?_⟩
  · rw [aggregateTeamStats_eq_statsOf, List.map_map, ← h1]
    apply List.map_congr_left
    intro kv hm
    show (finalTeamRow kv).team = kv.1
    unfold finalTeamRow
    rw [hkv kv hm]
    rfl
  · intro ts hts
    rw [aggregateTeamStats_eq_statsOf] at hts
    obtain ⟨kv, hm, rfl⟩ := List.mem_map.mp hts
    have hv := hkv kv hm
    refine ⟨?_, ?_, ?_⟩
    · show kv.2.betCount = (eventsFor kv.2.team (pickEvents ws)).length
      rw [hv]
      rfl
    · show kv.2.totalPoints =
        ((eventsFor kv.2.team (pickEvents ws)).map eventContribution).foldl JSNum.add
          (.finite 0)
      rw [hv]
      rfl
    · show kv.2.weekNames.length =
        ((eventsFor kv.2.team (pickEvents ws)).filterMap
          fun e => validWeekName e.1).toFinset.card
      rw [hv]
      exact length_foldl_insertIfAbsent _
  · with_unfolding_all decide

/-- A concrete application of `aggregateTeamStats_spec`: the Eagles row of
the spec's example satisfies the per-row characterization. -/
theorem aggregateTeamStats_spec_witness :
    (⟨"Eagles", 2, .finite 3, .finite (3/2), 2⟩ : TeamStat).betCount =
        (eventsFor "Eagles" (pickEvents eaglesWeeks)).length ∧
      (⟨"Eagles", 2, .finite 3, .finite (3/2), 2⟩ : TeamStat).totalPoints =
        ((eventsFor "Eagles" (pickEvents eaglesWeeks)).map eventContribution).foldl JSNum.add
          (.finite 0) ∧
      (⟨"Eagles", 2, .finite 3, .finite (3/2), 2⟩ : TeamStat).weekCount =
        ((eventsFor "Eagles" (pickEvents eaglesWeeks)).filterMap
          fun e => validWeekName e.1).toFinset.card :=
  (aggregateTeamStats_spec eaglesWeeks).2.1 ⟨"Eagles", 2, .finite 3, .finite (3/2), 2⟩
    (by rw [(aggregateTeamStats_spec eaglesWeeks).2.2]; exact List.mem_singleton.mpr rfl)

/-- Read exactly `n` decimal digits. -/
def parseDigitsN (n : ℕ) (cs : List Char) : Option (ℕ × List Char) :=
  let ds := cs.take n
  if ds.length = n && ds.all isDigitChar then some (digitsToNat ds, cs.drop n) else none

/-- Days from the civil epoch 1970-01-01 (Gregorian, proleptic); the
integer divisions match C-style truncation on the shifted nonnegative
operands. -/
def daysFromCivil (y : ℤ) (m d : ℕ) : ℤ :=
  let yAdj : ℤ := if m ≤ 2 then y - 1 else y
  let era : ℤ := (if 0 ≤ yAdj then yAdj else yAdj - 399) / 400
  let yoe : ℕ := (yAdj - era * 400).toNat
  let mp : ℕ := (m + 9) % 12
  let doy : ℕ := (153 * mp + 2) / 5 + d - 1
  let doe : ℕ := yoe * 365 + yoe / 4 - yoe / 100 + doy
  era * 146097 + (doe : ℤ) - 719468

def isLeapYear (y : ℕ) : Bool := (y % 4 = 0 && !(y % 100 = 0)) || y % 400 = 0

def daysInMonth (y m : ℕ) : ℕ :=
  if m = 2 then (if isLeapYear y then 29 else 28)
  else if m = 4 || m = 6 || m = 9 || m = 11 then 30
  else 31

/-- The ECMAScript date-time-string date part `YYYY[-MM[-DD]]`, with range
checks (defaults month/day to 1). -/
def parseDatePart (cs : List Char) : Option (ℕ × ℕ × ℕ × List Char) :=
  (parseDigitsN 4 cs).bind fun yr =>
    match yr.2 with
    | '-' :: r2 =>
      (parseDigitsN 2 r2).bind fun mr =>
        if mr.1 < 1 || 12 < mr.1 then none
        else
          match mr.2 with
          | '-' :: r4 =>
            (parseDigitsN 2 r4).bind fun dr =>
              if dr.1 < 1 || daysInMonth yr.1 mr.1 < dr.1 then none
              else some (yr.1, mr.1, dr.1, dr.2)
          | _ => some (yr.1, mr.1, 1, mr.2)
    | _ => some (yr.1, 1, 1, yr.2)

/-- The ECMAScript date-time-string time part `HH:mm[:ss[.sss]]`. -/
def parseTimePart (cs : List Char) : Option (ℕ × ℕ × ℕ × ℕ × List Char) :=
  (parseDigitsN 2 cs).bind fun hr =>
    if 23 < hr.1 then none
    else
      match hr.2 with
      | ':' :: r2 =>
        (parseDigitsN 2 r2).bind fun mr =>
          if 59 < mr.1 then none
          else
            match mr.2 with
            | ':' :: r4 =>
              (parseDigitsN 2 r4).bind fun sr =>
                if 59 < sr.1 then none
                else
                  match sr.2 with
                  | '.' :: r6 =>
                    (parseDigitsN 3 r6).bind fun msr => some (hr.1, mr.1, sr.1, msr.1, msr.2)
                  | _ => some (hr.1, mr.1, sr.1, 0, sr.2)
            | _ => some (hr.1, mr.1, 0, 0, mr.2)
      | _ => none

/-- The time-zone offset `Z | ±HH:mm`, in minutes. -/
def parseOffsetPart : List Char → Option (ℤ × List Char)
  | 'Z' :: r => some (0, r)
  | c :: r =>
    if c = '+' || c = '-' then
      (parseDigitsN 2 r).bind fun ohr =>
        match ohr.2 with
        | ':' :: r3 =>
          (parseDigitsN 2 r3).bind fun omr =>
            if 23 < ohr.1 || 59 < omr.1 then none
            else some ((if c = '-' then -1 else 1) * ((ohr.1 : ℤ) * 60 + omr.1), omr.2)
        | _ => none
    else none
  | [] => none

def epochMs (y m d h mi sec ms : ℕ) : ℤ :=
  daysFromCivil y m d * 86400000 + (h : ℤ) * 3600000 + (mi : ℤ) * 60000 +
    (sec : ℤ) * 1000 + ms

/-- `new Date(string)` modelled as the ECMAScript ISO 8601 date-time string
format (four-digit years; a date-time without offset is taken as UTC, as
the environment's local time zone is not modelled; engine-specific lenient
formats parse as invalid). Returns the epoch time in milliseconds. -/
def jsDateParse (s : String) : Option ℤ :=
  (parseDatePart s.data).bind fun ymd =>
    match ymd.2.2.2 with
    | [] => some (epochMs ymd.1 ymd.2.1 ymd.2.2.1 0 0 0 0)
    | 'T' :: r2 =>
      (parseTimePart r2).bind fun tp =>
        match tp.2.2.2.2 with
        | [] => some (epochMs ymd.1 ymd.2.1 ymd.2.2.1 tp.1 tp.2.1 tp.2.2.1 tp.2.2.2.1)
        | rest =>
          (parseOffsetPart rest).bind fun off =>
            if off.2.isEmpty then
              some (epochMs ymd.1 ymd.2.1 ymd.2.2.1 tp.1 tp.2.1 tp.2.2.1 tp.2.2.2.1 -
                off.1 * 60000)
            else none
    | _ => none

/-- The 12-hour-clock fallback of the schedule sort key:
`/^(\d{1,2})(?::(\d{2}))?\s*([ap])m?$/i` on the lower-cased trimmed string,
converted to minutes since midnight. -/
def parse12hClock (s : String) : Option ℚ :=
  let cs := trimChars (lowerChars s.data)
  let d1 := cs.takeWhile isDigitChar
  if d1.isEmpty || 2 < d1.length then none
  else
    let rest := cs.drop d1.length
    let minsRest : Option (Option ℕ × List Char) :=
      match rest with
      | ':' :: r =>
        let md := r.takeWhile isDigitChar
        if md.length = 2 then some (some (digitsToNat md), r.drop 2) else none
      | r => some (none, r)
    minsRest.bind fun mr =>
      match mr.2.dropWhile isJsWhitespace with
      | p :: r4 =>
        if (p = 'a' || p = 'p') && (r4 = [] || r4 = ['m']) then
          some (((digitsToNat d1 % 12 + (if p = 'p' then 12 else 0)) * 60 + mr.1.getD 0 : ℕ) : ℚ)
        else none
      | [] => none

/-- Truncation toward zero, the `TimeClip` integer conversion of a numeric
`Date` argument. -/
def ratTrunc (q : ℚ) : ℤ := if 0 ≤ q then ⌊q⌋ else -⌊-q⌋

/-- The `parseTime` sort-key helper of `buildScheduleFromBestBets`: falsy
values sort last; a valid `new Date` gives its epoch milliseconds; then a
12-hour clock match gives minutes since midnight; then `parseFloat`; else
`+Infinity`. -/
def parseTime (v : RawVal) : JSNum :=
  if v = .null || v = .str "" || v = .num (.finite 0) || v = .num .nan then .inf false
  else
    let dateMs : Option ℤ :=
      match v with
      | .str s => jsDateParse s
      | .num (.finite q) => if |q| ≤ 8640000000000000 then some (ratTrunc q) else none
      | _ => none
    match dateMs with
    | some t => .finite (t : ℚ)
    | none =>
      match v with
      | .str s =>
        match parse12hClock s with
        | some k => .finite k
        | none =>
          match parseFloatChars s.data with
          | .nan => .inf false
          | j => j
      | _ => .inf false

/-- `typeof bestBet.team === 'string' && bestBet.team.trim()` as a boolean. -/
def hasTeamBB (bb : BestBet) : Bool :=
  match bb.team with
  | .str s => !(trimChars s.data).isEmpty
  | _ => false

/-- `bestBet.line !== null && bestBet.line !== undefined` and the template
string of the line trims nonempty, as a boolean: any number stringifies to
a nonempty string, a string must itself have a nonempty trim. -/
def hasLineBB (bb : BestBet) : Bool :=
  match bb.line with
  | .null => false
  | .str s => !(trimChars s.data).isEmpty
  | .num _ => true

/-- `typeof bestBet.time === 'string' && bestBet.time.trim()` as a boolean. -/
def hasTimeBB (bb : BestBet) : Bool :=
  match bb.time with
  | .str s => !(trimChars s.data).isEmpty
  | _ => false

/-- Substring containment, for the `/T00:00(?::00)?/` test (the optional
group adds nothing, so this is containment of "T00:00"). -/
def containsSeq (needle : List Char) : List Char → Bool
  | [] => needle.isEmpty
  | c :: rest => needle.isPrefixOf (c :: rest) || containsSeq needle rest

/-- One synthesized entry of `buildScheduleFromBestBets`: the pushed object
with `time` cleared for a valid ISO timestamp that contains "T00:00", and
`date` set to the trimmed time string when it parses as a date. -/
def synthGame (pl : Player) (bb : BestBet) : Game :=
  let td : RawVal × Option String :=
    match bb.time with
    | .str s =>
      let trimmedTime := trimChars s.data
      if trimmedTime.contains 'T' then
        match jsDateParse (String.mk trimmedTime) with
        | some _ =>
          (if containsSeq "T00:00".data trimmedTime then .null else .str s,
            some (String.mk trimmedTime))
        | none => (.str s, none)
      else (.str s, none)
    | t => (t, none)
  { team := if hasTeamBB bb then bb.team else .str ""
    opponent := .str ""
    line := bb.line
    opponent_line := .null
    date := match td.2 with | some d => .str d | none => .null
    time := td.1
    player := .str pl.name }

/-- The entry-collection loop of `buildScheduleFromBestBets`; a `null`
player slot makes the iteration throw (`none`), players without a best bet
or with team, line and time all unpopulated are skipped. -/
def synthEntries : List (Option Player) → Option (List Game)
  | [] => some []
  | none :: _ => none
  | some pl :: rest =>
    let tail := synthEntries rest
    match pl.best_bet with
    | none => tail
    | some bb =>
      if hasTeamBB bb || hasLineBB bb || hasTimeBB bb then
        tail.map fun es => synthGame pl bb :: es
      else tail

/-- `time ?? date`, the value fed into `parseTime` by the schedule sort. -/
def schedKeyInput (e : Game) : RawVal :=
  match e.time with
  | .null => e.date
  | t => t

/-- The player-name tie-break field of a synthesized entry (synthesized
entries always carry a string here). -/
def gamePlayerName (e : Game) : String :=
  match e.player with
  | .str s => s
  | _ => ""

/-- Rank of a `parseTime` key for the effective comparator order:
class 0 is negative infinity, class 1 a finite value, class 2 positive
infinity (`parseTime` never produces NaN; it is placed with class 2). -/
def keyRank : JSNum → ℤ × ℚ
  | .inf true => (0, 0)
  | .finite q => (1, q)
  | .inf false => (2, 0)
  | .nan => (2, 0)

/-- The effective boolean order of the schedule comparator
`parseTime(a.time ?? a.date) - parseTime(b.time ?? b.date)`, then
`a.player.localeCompare(b.player)`: subtracting two like-signed infinite
keys gives NaN, which ECMAScript `SortCompare` turns into +0 before the
name tie-break is ever reached, so entries in the same infinite class
compare as equal; only equal finite keys fall through to the name
comparison (idealised as code-unit string order). -/
def bbLEb (a b : Game) : Bool :=
  let ka := keyRank (parseTime (schedKeyInput a))
  let kb := keyRank (parseTime (schedKeyInput b))
  if ka.1 = kb.1 then
    if ka.1 = 1 then
      (if ka.2 = kb.2 then decide (gamePlayerName a ≤ gamePlayerName b)
        else decide (ka.2 < kb.2))
    else true
  else decide (ka.1 < kb.1)

/-- `buildScheduleFromBestBets` from app.js: collect one entry per
qualifying player, then stable-sort with the time/player comparator. -/
def buildScheduleFromBestBets (week : Option Week) : Option (List Game) :=
  match week with
  | none => some []
  | some w =>
    match w.players with
    | none => some []
    | some players => (synthEntries players).map fun es => es.mergeSort bbLEb

/-- The schedule selection of `renderSchedule`: the official schedule with
null slots dropped when nonempty, otherwise the synthesized best-bet
schedule. -/
def buildSchedule (week : Option Week) : Option (List Game) :=
  match week with
  | none => some []
  | some w =>
    let official := (w.schedule.getD []).filterMap id
    if official.isEmpty then buildScheduleFromBestBets week else some official

/-- The effective comparator order as a lexicographic key (entries outside
the finite class collapse to a constant value and name, as the comparator
treats them as mutually equal). -/
def gameSortKey (e : Game) : Lex (ℤ × Lex (ℚ × String)) :=
  let k := keyRank (parseTime (schedKeyInput e))
  toLex (k.1, toLex (if k.1 = 1 then k.2 else 0, if k.1 = 1 then gamePlayerName e else ""))

theorem bbLEb_iff_key (a b : Game) : bbLEb a b = true ↔ gameSortKey a ≤ gameSortKey b := by
  unfold bbLEb gameSortKey
  simp only [Prod.Lex.le_iff, Prod.Lex.lt_iff]
  by_cases h1 : (keyRank (parseTime (schedKeyInput a))).1 = (keyRank (parseTime (schedKeyInput b))).1
  · by_cases h2 : (keyRank (parseTime (schedKeyInput a))).1 = 1
    · have h2b : (keyRank (parseTime (schedKeyInput b))).1 = 1 := h1 ▸ h2
      simp only [if_pos h1, if_pos h2, if_pos h2b, h1, lt_self_iff_false, false_or, true_and]
      by_cases h3 : (keyRank (parseTime (schedKeyInput a))).2 =
          (keyRank (parseTime (schedKeyInput b))).2
      · simp [h3, lt_self_iff_false]
      · simp [h3]
    · have h2b : ¬(keyRank (parseTime (schedKeyInput b))).1 = 1 := fun hc => h2 (h1.trans hc)
      simp [if_pos h1, if_neg h2, if_neg h2b, h1, lt_self_iff_false]
  · simp only [if_neg h1, decide_eq_true_eq]
    constructor
    · intro h
      exact Or.inl h
    · rintro (h | ⟨he, _⟩)
      · exact h
      · exact absurd he h1

theorem bbLEb_trans (a b c : Game) (hab : bbLEb a b = true) (hbc : bbLEb b c = true) :
    bbLEb a c = true := by
  rw [bbLEb_iff_key] at *
  exact le_trans hab hbc

theorem bbLEb_total (a b : Game) : bbLEb a b || bbLEb b a := by
  rcases le_total (gameSortKey a) (gameSortKey b) with h | h
  · rw [Bool.or_eq_true, bbLEb_iff_key]
    exact Or.inl h
  · rw [Bool.or_eq_true, bbLEb_iff_key b a]
    exact Or.inr h

/-- The sort order claimed by the spec: ascending time sort key (absent or
unparseable keys last), every tie broken by ascending player name. -/
def claimedLE (a b : Game) : Prop :=
  (keyRank (parseTime (schedKeyInput a))).1 < (keyRank (parseTime (schedKeyInput b))).1 ∨
    ((keyRank (parseTime (schedKeyInput a))).1 = (keyRank (parseTime (schedKeyInput b))).1 ∧
      ((keyRank (parseTime (schedKeyInput a))).2 < (keyRank (parseTime (schedKeyInput b))).2 ∨
        ((keyRank (parseTime (schedKeyInput a))).2 = (keyRank (parseTime (schedKeyInput b))).2 ∧
          gamePlayerName a ≤ gamePlayerName b)))

/-- The order the code actually establishes: ascending time sort key with
non-finite keys last, the player-name tie-break applying only between equal
finite keys (entries in the same infinite class stay in synthesis order). -/
def amendedLE (a b : Game) : Prop :=
  (keyRank (parseTime (schedKeyInput a))).1 < (keyRank (parseTime (schedKeyInput b))).1 ∨
    ((keyRank (parseTime (schedKeyInput a))).1 = (keyRank (parseTime (schedKeyInput b))).1 ∧
      ((keyRank (parseTime (schedKeyInput a))).1 = 1 →
        ((keyRank (parseTime (schedKeyInput a))).2 < (keyRank (parseTime (schedKeyInput b))).2 ∨
          ((keyRank (parseTime (schedKeyInput a))).2 =
              (keyRank (parseTime (schedKeyInput b))).2 ∧
            gamePlayerName a ≤ gamePlayerName b))))

theorem bbLEb_imp_amendedLE (a b : Game) (h : bbLEb a b = true) : amendedLE a b := by
  unfold bbLEb at h
  unfold amendedLE
  by_cases h1 : (keyRank (parseTime (schedKeyInput a))).1 = (keyRank (parseTime (schedKeyInput b))).1
  · rw [if_pos h1] at h
    refine Or.inr ⟨h1, fun hc => ?_⟩
    rw [if_pos hc] at h
    by_cases h3 : (keyRank (parseTime (schedKeyInput a))).2 =
        (keyRank (parseTime (schedKeyInput b))).2
    · rw [if_pos h3] at h
      exact Or.inr ⟨h3, by simpa using h⟩
    · rw [if_neg h3] at h
      exact Or.inl (by simpa using h)
  · rw [if_neg h1] at h
    exact Or.inl (by simpa using h)

theorem synthEntries_map_some (players : List Player) :
    synthEntries (players.map some) =
      some (players.filterMap fun pl =>
        pl.best_bet.bind fun bb =>
          if hasTeamBB bb || hasLineBB bb || hasTimeBB bb then some (synthGame pl bb)
          else none) := by
  induction players with
  | nil => rfl
  | cons pl rest ih =>
    simp only [List.map_cons, synthEntries, ih, List.filterMap_cons]
    cases pl.best_bet with
    | none => rfl
    | some bb =>
      simp only [Option.some_bind]
      split <;> rfl

/-- The spec's example week: empty schedule, one player with
`best_bet = {team: "X", line: -3, time: "2024-09-08T13:00:00Z"}`. -/
def specExampleWeek : Week :=
  ⟨.str "W1", some [], some [some ⟨"P", .null,
    some ⟨.str "X", .num (.finite (-3)), .str "2024-09-08T13:00:00Z"⟩, none⟩]⟩

/-- Two players with best bets that have a team but no parseable time, in
reverse-alphabetical synthesis order. -/
def zedPlayer : Player := ⟨"Zed", .null, some ⟨.str "X", .null, .null⟩, none⟩

def annPlayer : Player := ⟨"Ann", .null, some ⟨.str "Y", .null, .null⟩, none⟩

/-- A week whose two synthesized entries both get the `+Infinity` sort key. -/
def tieWeek : Week := ⟨.str "W", some [], some [some zedPlayer, some annPlayer]⟩

/-- C8 counterexample: with an empty official schedule and two qualifying
players "Zed" then "Ann" whose best bets have no time, both synthesized
entries get the `+Infinity` sort key; the comparator computes
`Infinity - Infinity = NaN`, which `Array.prototype.sort` treats as 0, so
the stable sort keeps them in synthesis order ["Zed", "Ann"] instead of the
claimed name order, and the output violates the claimed ordering. -/
theorem buildSchedule_tie_counterexample :
    buildSchedule (some tieWeek) =
      some [synthGame zedPlayer ⟨.str "X", .null, .null⟩,
        synthGame annPlayer ⟨.str "Y", .null, .null⟩] ∧
    ¬ claimedLE (synthGame zedPlayer ⟨.str "X", .null, .null⟩)
        (synthGame annPlayer ⟨.str "Y", .null, .null⟩) ∧
    ¬ List.Pairwise claimedLE [synthGame zedPlayer ⟨.str "X", .null, .null⟩,
        synthGame annPlayer ⟨.str "Y", .null, .null⟩] := by
  refine ⟨by with_unfolding_all decide, ?_, ?_⟩
  · unfold claimedLE
    with_unfolding_all decide
  · intro hp
    have h := (List.pairwise_cons.mp hp).1 _ (List.mem_cons_self _ _)
    revert h
    unfold claimedLE
    with_unfolding_all decide

/-- C8 amended: for a week whose official schedule is empty (after
dropping null slots) and whose player slots are non-null, `buildSchedule`
returns a permutation of one synthesized game per player whose best bet
has team, line or time populated, sorted so that entries ascend by time
sort key with non-finite keys last, the player-name tie-break applying to
equal finite keys; each synthesized game has empty opponent, the
originating player's name, the raw best-bet line, team defaulting to
empty, `date` set to the trimmed time string when it is a valid ISO
datetime, and `time` cleared exactly for midnight-only timestamps; on the
spec's example the single game has team "X", normalized line -3 and a
non-null date. -/
theorem buildSchedule_fromBestBets_spec :
    (∀ (w : Week) (players : List Player),
      w.players = some (players.map some) →
      (w.schedule.getD []).filterMap id = [] →
      ∃ l : List Game, buildSchedule (some w) = some l ∧
        l.Perm (players.filterMap fun pl =>
          pl.best_bet.bind fun bb =>
            if hasTeamBB bb || hasLineBB bb || hasTimeBB bb then some (synthGame pl bb)
            else none) ∧
        l.Pairwise amendedLE) ∧
    (∀ (pl : Player) (bb : BestBet),
      (synthGame pl bb).opponent = .str "" ∧
      (synthGame pl bb).opponent_line = .null ∧
      (synthGame pl bb).player = .str pl.name ∧
      (synthGame pl bb).line = bb.line ∧
      (hasTeamBB bb = false → (synthGame pl bb).team = .str "") ∧
      (hasTeamBB bb = true → (synthGame pl bb).team = bb.team) ∧
      (∀ s : String, bb.time = .str s → (trimChars s.data).contains 'T' →
        (jsDateParse (String.mk (trimChars s.data))).isSome →
        (synthGame pl bb).date = .str (String.mk (trimChars s.data)) ∧
          ((synthGame pl bb).time = .null ↔
            containsSeq "T00:00".data (trimChars s.data) = true))) ∧
    (∃ g : Game, buildSchedule (some specExampleWeek) = some [g] ∧
      g.team = .str "X" ∧ normaliseLineValue g.line = some (-3) ∧ g.date ≠ .null) := by
  refine ⟨?_, ?_, ?_⟩
  · intro w players hp hs
    have hempty : ((w.schedule.getD []).filterMap id).isEmpty := by
      rw [hs]
      rfl
    refine ⟨(players.filterMap fun pl =>
        pl.best_bet.bind fun bb =>
          if hasTeamBB bb || hasLineBB bb || hasTimeBB bb then some (synthGame pl bb)
          else none).mergeSort bbLEb, ?_, ?_, ?_⟩
    · rw [show buildSchedule (some w) =
          (if ((w.schedule.getD []).filterMap id).isEmpty then
            buildScheduleFromBestBets (some w)
          else some ((w.schedule.getD []).filterMap id)) from rfl]
      rw [if_pos hempty]
      rw [show buildScheduleFromBestBets (some w) =
          (match w.players with
          | none => some []
          | some players => (synthEntries players).map fun es => es.mergeSort bbLEb) from rfl]
      rw [hp]
      dsimp only
      rw [synthEntries_map_some]
      rfl
    · exact List.mergeSort_perm _ bbLEb
    · exact (List.sorted_mergeSort bbLEb_trans bbLEb_total _).imp
        fun {a b} h => bbLEb_imp_amendedLE a b h
  · intro pl bb
    refine ⟨rfl, rfl, rfl, rfl, ?_, ?_, ?_⟩
    · intro h
      unfold synthGame
      rw [h]
      rfl
    · intro h
      unfold synthGame
      rw [h]
      rfl
    · intro s hbt hT hparse
      unfold synthGame
      rw [hbt]
      simp only [hT, if_true]
      obtain ⟨t, ht⟩ := Option.isSome_iff_exists.mp hparse
      rw [ht]
      refine ⟨rfl, ?_⟩
      by_cases hmid : containsSeq "T00:00".data (trimChars s.data) = true
      · simp [hmid]
      · simp [hmid]
  · exact ⟨synthGame ⟨"P", .null,
      some ⟨.str "X", .num (.finite (-3)), .str "2024-09-08T13:00:00Z"⟩, none⟩
        ⟨.str "X", .num (.finite (-3)), .str "2024-09-08T13:00:00Z"⟩,
      by with_unfolding_all decide, by with_unfolding_all decide,
      rfl, by with_unfolding_all decide⟩

/-- A concrete application of `buildSchedule_fromBestBets_spec` at the
two-player tie week. -/
theorem buildSchedule_fromBestBets_spec_witness :
    ∃ l : List Game, buildSchedule (some tieWeek) = some l ∧
      l.Perm ([zedPlayer, annPlayer].filterMap fun pl =>
        pl.best_bet.bind fun bb =>
          if hasTeamBB bb || hasLineBB bb || hasTimeBB bb then some (synthGame pl bb)
          else none) ∧
      l.Pairwise amendedLE :=
  buildSchedule_fromBestBets_spec.1 tieWeek [zedPlayer, annPlayer] rfl rfl

/-- `clamp(value, min, max)` from app.js. -/
def clampQ (v lo hi : ℚ) : ℚ := min (max v lo) hi

def hexDigitVal (c : Char) : Option ℕ :=
  if isDigitChar c then some (digitVal c)
  else
    let lc := c.toLower
    if 'a' ≤ lc && lc ≤ 'f' then some (lc.toNat - 87) else none

/-- `Number.parseInt(s, 16)`: leading whitespace, optional sign, optional
`0x` prefix, then the longest hex-digit prefix; none parses to NaN. -/
def parseIntHex (cs0 : List Char) : Option ℤ :=
  let cs := cs0.dropWhile isJsWhitespace
  let (neg, cs1) := parseSignChar cs
  let cs2 :=
    match cs1 with
    | '0' :: x :: rest => if x = 'x' || x = 'X' then rest else cs1
    | _ => cs1
  let ds := cs2.takeWhile fun c => (hexDigitVal c).isSome
  if ds.isEmpty then none
  else some ((if neg then -1 else 1) *
    ds.foldl (fun a c => 16 * a + ((hexDigitVal c).getD 0 : ℤ)) 0)

/-- `parseHexChannel` from app.js (NaN is coerced to 0). -/
def parseHexChannel (cs : List Char) : ℚ := ((parseIntHex cs).getD 0 : ℤ)

/-- An rgba quadruple: channels in 0..255, alpha in 0..1. -/
abbrev Rgba := ℚ × ℚ × ℚ × ℚ

/-- `hexToRgba` from app.js: strip `#`, trim, accept lengths 3/4/6/8 with
single digits doubled and an alpha channel scaled by 255. -/
def hexToRgba (s : List Char) : Option Rgba :=
  let value := trimChars (s.filter fun c => !(c = '#'))
  match value with
  | [c1, c2, c3] =>
    some (parseHexChannel [c1, c1], parseHexChannel [c2, c2], parseHexChannel [c3, c3], 1)
  | [c1, c2, c3, c4] =>
    some (parseHexChannel [c1, c1], parseHexChannel [c2, c2], parseHexChannel [c3, c3],
      parseHexChannel [c4, c4] / 255)
  | [c1, c2, c3, c4, c5, c6] =>
    some (parseHexChannel [c1, c2], parseHexChannel [c3, c4], parseHexChannel [c5, c6], 1)
  | [c1, c2, c3, c4, c5, c6, c7, c8] =>
    some (parseHexChannel [c1, c2], parseHexChannel [c3, c4], parseHexChannel [c5, c6],
      parseHexChannel [c7, c8] / 255)
  | _ => none

/-- One `[\d.]+%?` channel token of the rgb/rgba pattern, converted as in
app.js (`%` scales by 2.55; everything clamps to 0..255). A token with no
digit (dots only) parses to a NaN channel in JS; that is modelled as a
parse failure. -/
def parseChannelToken (cs : List Char) : Option (ℚ × List Char) :=
  let ds := cs.takeWhile fun c => isDigitChar c || c = '.'
  if ds.isEmpty then none
  else
    let rest := cs.drop ds.length
    match parseFloatChars ds with
    | .finite v =>
      match rest with
      | '%' :: r2 => some (clampQ (v * (51 / 20)) 0 255, r2)
      | _ => some (clampQ v 0 255, rest)
    | _ => none

/-- The `([\d.]+)` alpha token, clamped to 0..1. -/
def parseAlphaToken (cs : List Char) : Option (ℚ × List Char) :=
  let ds := cs.takeWhile fun c => isDigitChar c || c = '.'
  if ds.isEmpty then none
  else
    match parseFloatChars ds with
    | .finite v => some (clampQ v 0 1, cs.drop ds.length)
    | _ => none

/-- The body of the rgb/rgba pattern after the opening parenthesis:
`\s*ch\s*,\s*ch\s*,\s*ch(?:\s*,\s*alpha)?\s*\)` anchored at the end. -/
def parseRgbaBody (cs : List Char) : Option Rgba :=
  (parseChannelToken (cs.dropWhile isJsWhitespace)).bind fun t1 =>
    match t1.2.dropWhile isJsWhitespace with
    | ',' :: r2 =>
      (parseChannelToken (r2.dropWhile isJsWhitespace)).bind fun t2 =>
        match t2.2.dropWhile isJsWhitespace with
        | ',' :: r4 =>
          (parseChannelToken (r4.dropWhile isJsWhitespace)).bind fun t3 =>
            match t3.2.dropWhile isJsWhitespace with
            | ',' :: r6 =>
              (parseAlphaToken (r6.dropWhile isJsWhitespace)).bind fun t4 =>
                match t4.2.dropWhile isJsWhitespace with
                | [')'] => some (t1.1, t2.1, t3.1, t4.1)
                | _ => none
            | [')'] => some (t1.1, t2.1, t3.1, 1)
            | _ => none
        | _ => none
    | _ => none

/-- `rgbaStringToArray` from app.js: the anchored
`^rgba?\(...\)$` match on the trimmed string, case-insensitive. -/
def rgbaStringToArray (s : String) : Option Rgba :=
  match trimChars s.data with
  | r :: g :: b :: rest =>
    if Char.toLower r = 'r' && Char.toLower g = 'g' && Char.toLower b = 'b' then
      let rest2 :=
        match rest with
        | a :: r2 => if Char.toLower a = 'a' then r2 else rest
        | [] => rest
      match rest2 with
      | '(' :: r3 => parseRgbaBody r3
      | _ => none
    else none
  | _ => none

/-- `normaliseColor` from app.js: falsy or blank gives null, `#...` parses
as hex, an `rgb` prefix (case-insensitive) parses as rgb/rgba; the
canvas-based fallback for other syntaxes is not modelled (as when no 2d
context is available, the code returns null). -/
def normaliseColor (color : String) : Option Rgba :=
  if color = "" then none
  else
    let trimmed := trimChars color.data
    if trimmed.isEmpty then none
    else if trimmed.head? = some '#' then hexToRgba trimmed
    else if lowerChars (trimmed.take 3) = "rgb".data then rgbaStringToArray (String.mk trimmed)
    else none

/-- `mixColors` from app.js: parse both endpoint colors, clamp the ratio,
interpolate channel-wise and render an `rgba(r, g, b, a)` string with
rounded channels and the alpha rounded to 3 decimals. -/
def mixColors (start endColor : String) (ratio : ℚ) : Option String :=
  (normaliseColor start).bind fun s =>
    (normaliseColor endColor).bind fun e =>
      let t := clampQ ratio 0 1
      let r := s.1 + (e.1 - s.1) * t
      let g := s.2.1 + (e.2.1 - s.2.1) * t
      let b := s.2.2.1 + (e.2.2.1 - s.2.2.1) * t
      let a := s.2.2.2 + (e.2.2.2 - s.2.2.2) * t
      some ("rgba(" ++ toString (round r) ++ ", " ++ toString (round g) ++ ", "
        ++ toString (round b) ++ ", "
        ++ String.mk (stripTrailingZerosDot (toFixed3String (roundTo3 a))) ++ ")")

/-- The sRGB channel transform of `relativeLuminance`, with the
transcendental `Math.pow(x, 2.4)` abstracted as a parameter `pow24`. -/
def srgbChannel (pow24 : ℚ → ℚ) (channel : ℚ) : ℚ :=
  let v := channel / 255
  if v ≤ 0.03928 then v / 12.92 else pow24 ((v + 0.055) / 1.055)

/-- `relativeLuminance` from app.js (standard sRGB weights). -/
def relativeLuminance (pow24 : ℚ → ℚ) (color : String) : Option ℚ :=
  (normaliseColor color).map fun c =>
    0.2126 * srgbChannel pow24 c.1 + 0.7152 * srgbChannel pow24 c.2.1 +
      0.0722 * srgbChannel pow24 c.2.2.1

/-- The theme tokens consumed by the heatmap color mapper. -/
structure Theme where
  heatmapLow : String
  heatmapHigh : String
  heatmapTextDark : String
  heatmapTextLight : String
deriving DecidableEq, Repr

/-- `range === 0 ? 0.5 : (score - minScore) / range`. -/
def heatmapRatio (score minScore maxScore : ℚ) : ℚ :=
  if maxScore - minScore = 0 then 1 / 2 else (score - minScore) / (maxScore - minScore)

/-- `computeHeatmapColor` from app.js: null for non-finite scores,
interpolated background (falling back to the low color when mixing fails),
and the light text color exactly when the background's relative luminance
is defined and below 0.55. -/
def computeHeatmapColor (pow24 : ℚ → ℚ) (score : JSNum) (minScore maxScore : ℚ)
    (theme : Theme) : Option (String × String) :=
  match score with
  | .finite q =>
    let ratio := heatmapRatio q minScore maxScore
    let background :=
      (mixColors theme.heatmapLow theme.heatmapHigh (clampQ ratio 0 1)).getD theme.heatmapLow
    let textColor :=
      match relativeLuminance pow24 background with
      | some l => if l < 0.55 then theme.heatmapTextLight else theme.heatmapTextDark
      | none => theme.heatmapTextDark
    some (background, textColor)
  | _ => none

/-- C9: `computeHeatmapColor` returns null for every non-finite score; when
`minScore = maxScore` the interpolation ratio is 0.5 and the result does
not depend on the score at all; and (for any channel power function, in
particular the sRGB exponent 2.4) the returned text color is the light
constant exactly when the produced background's relative luminance is
defined and below 0.55, otherwise the dark constant. -/
theorem computeHeatmapColor_spec (pow24 : ℚ → ℚ) (score : JSNum) (minScore maxScore : ℚ)
    (theme : Theme) :
    (score.isFinite = false → computeHeatmapColor pow24 score minScore maxScore theme = none) ∧
    (∀ q q' : ℚ, computeHeatmapColor pow24 (.finite q) minScore minScore theme =
      computeHeatmapColor pow24 (.finite q') minScore minScore theme) ∧
    (∀ q m : ℚ, heatmapRatio q m m = 1 / 2) ∧
    (theme.heatmapTextLight ≠ theme.heatmapTextDark →
      ∀ bg txt : String,
        computeHeatmapColor pow24 score minScore maxScore theme = some (bg, txt) →
        (txt = theme.heatmapTextLight ↔
          ∃ l, relativeLuminance pow24 bg = some l ∧ l < 0.55)) := by
  refine ⟨?_, ?_, ?_, ?_⟩
  · intro h
    cases score with
    | finite q => simp [JSNum.isFinite] at h
    | inf n => rfl
    | nan => rfl
  · intro q q'
    simp [computeHeatmapColor, heatmapRatio, sub_self]
  · intro q m
    simp [heatmapRatio, sub_self]
  · intro hne bg txt heq
    cases score with
    | inf n => exact absurd heq (by simp [computeHeatmapColor])
    | nan => exact absurd heq (by simp [computeHeatmapColor])
    | finite q =>
      simp only [computeHeatmapColor, Option.some.injEq, Prod.mk.injEq] at heq
      obtain ⟨hbg, htxt⟩ := heq
      subst hbg
      cases hl : relativeLuminance pow24
          ((mixColors theme.heatmapLow theme.heatmapHigh
            (clampQ (heatmapRatio q minScore maxScore) 0 1)).getD theme.heatmapLow) with
      | some l =>
        rw [hl] at htxt
        dsimp only at htxt
        by_cases hlt : l < 0.55
        · rw [if_pos hlt] at htxt
          subst htxt
          exact ⟨fun _ => ⟨l, rfl, hlt⟩, fun _ => rfl⟩
        · rw [if_neg hlt] at htxt
          subst htxt
          refine ⟨fun hc => absurd hc.symm hne, ?_⟩
          rintro ⟨l2, hl2, hlt2⟩
          obtain rfl := Option.some_injective _ hl2
          exact absurd hlt2 hlt
      | none =>
        rw [hl] at htxt
        dsimp only at htxt
        subst htxt
        refine ⟨fun hc => absurd hc.symm hne, ?_⟩
        rintro ⟨l2, hl2, _⟩
        exact Option.noConfusion hl2

/-- The default theme tokens from app.js. -/
def themeExample : Theme := ⟨"#f97316", "#22d3ee", "#0f172a", "#f8fafc"⟩

/-- A concrete application of `computeHeatmapColor_spec`: a NaN score gives
null, and the text-color rule holds on a concrete produced cell. -/
theorem computeHeatmapColor_spec_witness :
    computeHeatmapColor (fun _ => 0) .nan 0 1 themeExample = none ∧
    (∃ bg txt : String,
      computeHeatmapColor (fun _ => 0) (.finite 1) 0 1 themeExample = some (bg, txt) ∧
      (txt = themeExample.heatmapTextLight ↔
        ∃ l, relativeLuminance (fun _ => 0) bg = some l ∧ l < 0.55)) :=
  ⟨(computeHeatmapColor_spec (fun _ => 0) .nan 0 1 themeExample).1 rfl,
    ⟨_, _, by with_unfolding_all rfl,
      (computeHeatmapColor_spec (fun _ => 0) (.finite 1) 0 1 themeExample).2.2.2
        (by decide) _ _ (by with_unfolding_all rfl)⟩⟩

end Kevin
